import Mathlib

/-!
Verification development for the cfp-to-jpz crossword converter
(source file: cfp-to-jpz.py).

The grid analysis engine and the document encoder are shallowly embedded
here.  The mutable numpy arrays of the source become explicit state passed
through folds; Python dicts become association lists with dict semantics
(`dictSet` replaces an existing key, otherwise appends, so iteration order
is insertion order, as for Python dicts); Python exceptions (KeyError,
IndexError, ValueError, assert) become `Option`/`Except` results.

Definitions whose names start with `Spec` are specification-side notions
(run heads, spans, anchors, the characterization of the answer-clue table)
used to state the claims; everything else is translated from the source.
-/

namespace CfpJpz

/-- Models a Python list read `xs[i-1]` for `0 ≤ i < n` on a list of length
`n`: for `i = 0` Python wraps around to the last element. -/
def pyIdx (n i : Nat) : Nat := if i = 0 then n - 1 else i - 1

/-- The normalized puzzle model the analysis engine consumes: grid
dimensions, grid characters (`'.'` = block), the rebus table, the circle
list (linear indices, as parsed integers) and the direction-keyed clue
table (association lists in insertion order, mirroring Python dicts). -/
structure Model where
  R : Nat
  C : Nat
  g : Nat → Nat → Char
  rebus : List (Char × List Char)
  circles : List Int
  cdA : List (Int × String)
  cdD : List (Int × String)

/-- State threaded through `get_numbering`: the numbering array (as a
function), the counter, and the two number lists. -/
structure NumSt where
  num : Nat → Nat → Int
  count : Int
  acrossNums : List Int
  downNums : List Int

/-- Pointwise update of the numbering array, `numbering[a, b] = v`. -/
def updNum (f : Nat → Nat → Int) (a b : Nat) (v : Int) : Nat → Nat → Int :=
  fun i j => if i = a ∧ j = b then v else f i j

/-- `numbering = np.zeros((n_rows, n_cols))` followed by the loop writing
`-1` at every blocked cell (the loop only touches in-range cells), and
`count = 1`. -/
def initSt (m : Model) : NumSt :=
  { num := fun i j => if i < m.R ∧ j < m.C ∧ m.g i j = '.' then -1 else 0
    count := 1
    acrossNums := []
    downNums := [] }

/-- One iteration of the first loop of `get_numbering` (over `numbering[0]`).
Python reads `numbering[0][i-1]` after assigning `numbering[0, i]`, with
negative-index wraparound at `i = 0` (the `or i == 0` makes the wrapped
read irrelevant). -/
def row0Step (m : Model) (s : NumSt) (i : Nat) : NumSt :=
  if s.num 0 i = 0 then
    let s1 : NumSt :=
      { s with num := updNum s.num 0 i s.count, downNums := s.downNums ++ [s.count] }
    let s2 : NumSt :=
      if s1.num 0 (pyIdx m.C i) = -1 ∨ i = 0 then
        { s1 with acrossNums := s1.acrossNums ++ [s1.count] }
      else s1
    { s2 with count := s2.count + 1 }
  else s

/-- One iteration of the main nested loop of `get_numbering` at cell
`(i, j)`.  In the branch reading `numbering[i, j-1]` the guards force
`j ≥ 1` (at `j = 0` the cell value is `-1` there, never `0`), so plain
`j - 1` agrees with Python; `pyIdx` is used anyway to mirror the source
read exactly. -/
def mainStep (m : Model) (s : NumSt) (i j : Nat) : NumSt :=
  if i = 0 then s
  else if j = 0 ∧ s.num i j > -1 then
    let s1 : NumSt :=
      { s with num := updNum s.num i j s.count, acrossNums := s.acrossNums ++ [s.count] }
    let s2 : NumSt :=
      if s1.num (i - 1) j = -1 then { s1 with downNums := s1.downNums ++ [s1.count] }
      else s1
    { s2 with count := s2.count + 1 }
  else if s.num i j = 0 ∧ s.num (i - 1) j = -1 then
    let s1 : NumSt :=
      { s with num := updNum s.num i j s.count, downNums := s.downNums ++ [s.count] }
    let s2 : NumSt :=
      if s1.num i (pyIdx m.C j) = -1 then { s1 with acrossNums := s1.acrossNums ++ [s1.count] }
      else s1
    { s2 with count := s2.count + 1 }
  else if s.num i j = -1 ∧ j < m.C - 1 then
    if s.num i (j + 1) > -1 then
      let s1 : NumSt :=
        { s with num := updNum s.num i (j + 1) s.count, acrossNums := s.acrossNums ++ [s.count] }
      let s2 : NumSt :=
        if s1.num (i - 1) (j + 1) = -1 then { s1 with downNums := s1.downNums ++ [s1.count] }
        else s1
      { s2 with count := s2.count + 1 }
    else s
  else s

/-- The first loop of `get_numbering`, over the cells of row 0. -/
def row0Pass (m : Model) : NumSt :=
  (List.range m.C).foldl (row0Step m) (initSt m)

/-- One row of the main nested loop. -/
def rowPass (m : Model) (s : NumSt) (i : Nat) : NumSt :=
  (List.range m.C).foldl (fun s j => mainStep m s i j) s

/-- The full `get_numbering` scan: row-0 loop followed by the row-major
main loop. -/
def numberingSt (m : Model) : NumSt :=
  (List.range m.R).foldl (rowPass m) (row0Pass m)

/-- The derived Numbering Grid, `self._numbering`. -/
def finalNum (m : Model) (i j : Nat) : Int := (numberingSt m).num i j

/-! ## Specification-side notions used to state the claims -/

/-- The cell is blocked. -/
def SpecBlocked (m : Model) (i j : Nat) : Prop := m.g i j = '.'

/-- Leftmost cell of a maximal horizontal run: unblocked, and at column 0
or with a blocked left neighbor. -/
def SpecAcrossStart (m : Model) (i j : Nat) : Prop :=
  i < m.R ∧ j < m.C ∧ ¬ SpecBlocked m i j ∧ (j = 0 ∨ SpecBlocked m i (j - 1))

/-- Topmost cell of a maximal vertical run: unblocked, and in row 0 or
with a blocked neighbor above. -/
def SpecDownStart (m : Model) (i j : Nat) : Prop :=
  i < m.R ∧ j < m.C ∧ ¬ SpecBlocked m i j ∧ (i = 0 ∨ SpecBlocked m (i - 1) j)

/-- An anchor cell: starts an across run or a down run. -/
def SpecAnchor (m : Model) (i j : Nat) : Prop :=
  SpecAcrossStart m i j ∨ SpecDownStart m i j

instance (m : Model) (i j : Nat) : Decidable (SpecBlocked m i j) := by
  unfold SpecBlocked; infer_instance

instance (m : Model) (i j : Nat) : Decidable (SpecAcrossStart m i j) := by
  unfold SpecAcrossStart; infer_instance

instance (m : Model) (i j : Nat) : Decidable (SpecDownStart m i j) := by
  unfold SpecDownStart; infer_instance

instance (m : Model) (i j : Nat) : Decidable (SpecAnchor m i j) := by
  unfold SpecAnchor; infer_instance

/-- Number of anchor cells at row-major linear positions `< t`. -/
def anchorsLT (m : Model) (t : Nat) : Nat :=
  ((List.range t).filter (fun u => decide (SpecAnchor m (u / m.C) (u % m.C)))).length

/-- Number of anchor cells strictly before `(i, j)` in row-major order. -/
def anchorsBefore (m : Model) (i j : Nat) : Nat := anchorsLT m (i * m.C + j)

/-- The closed-form value of the Numbering Grid the claims describe:
`-1` at blocks, `1 +` the number of earlier anchors at anchors, `0`
elsewhere. -/
def finVal (m : Model) (i j : Nat) : Int :=
  if SpecBlocked m i j then -1
  else if SpecAnchor m i j then ((1 + anchorsBefore m i j : Nat) : Int)
  else 0

/-! ## Generic fold and array lemmas -/

theorem foldl_range_inv {α : Type _} (n : Nat) (f : α → Nat → α) (init : α)
    (P : Nat → α → Prop) (h0 : P 0 init)
    (hs : ∀ k s, k < n → P k s → P (k + 1) (f s k)) :
    P n ((List.range n).foldl f init) := by
  induction n with
  | zero => simpa using h0
  | succ n ih =>
    rw [List.range_succ, List.foldl_append]
    exact hs n _ (Nat.lt_succ_self n)
      (ih (fun k s hk => hs k s (Nat.lt_succ_of_lt hk)))

theorem updNum_same (f : Nat → Nat → Int) (a b : Nat) (v : Int) :
    updNum f a b v a b = v := by simp [updNum]

theorem updNum_other (f : Nat → Nat → Int) {a b i j : Nat} {v : Int}
    (h : ¬ (i = a ∧ j = b)) : updNum f a b v i j = f i j := by
  simp only [updNum, if_neg h]

theorem pos_div {C j : Nat} (i : Nat) (hj : j < C) : (i * C + j) / C = i := by
  have hC : 0 < C := Nat.lt_of_le_of_lt (Nat.zero_le j) hj
  rw [Nat.mul_comm i C, Nat.mul_add_div hC, Nat.div_eq_of_lt hj, Nat.add_zero]

theorem pos_mod {C j : Nat} (i : Nat) (hj : j < C) : (i * C + j) % C = j := by
  rw [Nat.mul_comm, Nat.mul_add_mod, Nat.mod_eq_of_lt hj]

theorem pos_inj {C a b i j : Nat} (hb : b < C) (hj : j < C)
    (h : a * C + b = i * C + j) : a = i ∧ b = j := by
  have h1 : (a * C + b) / C = (i * C + j) / C := by rw [h]
  rw [pos_div a hb, pos_div i hj] at h1
  subst h1
  exact ⟨rfl, by omega⟩

theorem anchorsLT_succ (m : Model) (t : Nat) :
    anchorsLT m (t + 1) =
      anchorsLT m t + (if SpecAnchor m (t / m.C) (t % m.C) then 1 else 0) := by
  unfold anchorsLT
  rw [List.range_succ, List.filter_append, List.length_append]
  by_cases h : SpecAnchor m (t / m.C) (t % m.C) <;> simp [h]

theorem anchorsLT_mono (m : Model) {t u : Nat} (h : t ≤ u) :
    anchorsLT m t ≤ anchorsLT m u := by
  induction u with
  | zero => have ht : t = 0 := by omega
            rw [ht]
  | succ u ih =>
    rcases Nat.lt_or_ge t (u + 1) with h1 | h1
    · have h2 : anchorsLT m u ≤ anchorsLT m (u + 1) := by
        rw [anchorsLT_succ]; omega
      exact (ih (by omega)).trans h2
    · have ht : t = u + 1 := by omega
      rw [ht]

theorem anchorsLT_strict (m : Model) {t u : Nat} (ht : t < u)
    (ha : SpecAnchor m (t / m.C) (t % m.C)) :
    anchorsLT m t < anchorsLT m u := by
  have h1 : anchorsLT m (t + 1) = anchorsLT m t + 1 := by
    rw [anchorsLT_succ, if_pos ha]
  have h3 : anchorsLT m (t + 1) ≤ anchorsLT m u := anchorsLT_mono m ht
  omega

/-! ## Phase 1: the row-0 loop of `get_numbering` -/

/-- Invariant after the first `k` iterations of the row-0 loop. -/
def Inv1 (m : Model) (k : Nat) (s : NumSt) : Prop :=
  (∀ b, b < k → s.num 0 b = finVal m 0 b) ∧
  (∀ a b, a ≠ 0 ∨ k ≤ b → s.num a b = (initSt m).num a b) ∧
  s.count = 1 + (anchorsLT m k : Int)

theorem row0Step_fire (m : Model) (s : NumSt) (i : Nat) (h : s.num 0 i = 0) :
    (row0Step m s i).num = updNum s.num 0 i s.count ∧
      (row0Step m s i).count = s.count + 1 := by
  unfold row0Step
  rw [if_pos h]
  refine ⟨?_, ?_⟩ <;> (dsimp only; split <;> rfl)

theorem row0Step_skip (m : Model) (s : NumSt) (i : Nat) (h : ¬ s.num 0 i = 0) :
    row0Step m s i = s := by
  unfold row0Step
  rw [if_neg h]

theorem anchor_row0 (m : Model) (b : Nat) (hR : 0 < m.R) (hb : b < m.C)
    (hnb : ¬ SpecBlocked m 0 b) : SpecAnchor m 0 b :=
  Or.inr ⟨hR, hb, hnb, Or.inl rfl⟩

theorem inv1_holds (m : Model) (hR : 0 < m.R) :
    Inv1 m m.C (row0Pass m) := by
  unfold row0Pass
  refine foldl_range_inv m.C (row0Step m) (initSt m) (Inv1 m) ?_ ?_
  · refine ⟨fun b hb => absurd hb (Nat.not_lt_zero b), fun a b _ => rfl, ?_⟩
    simp [initSt, anchorsLT]
  · intro k s hk hI
    obtain ⟨h1, h2, h3⟩ := hI
    have hcur : s.num 0 k = (initSt m).num 0 k := h2 0 k (Or.inr (Nat.le_refl k))
    have hinit : (initSt m).num 0 k = if SpecBlocked m 0 k then -1 else 0 := by
      simp only [initSt, SpecBlocked]
      by_cases hb : m.g 0 k = '.' <;> simp [hb, hR, hk]
    have hdiv : k / m.C = 0 := Nat.div_eq_of_lt hk
    have hmod : k % m.C = k := Nat.mod_eq_of_lt hk
    by_cases hb : SpecBlocked m 0 k
    · -- blocked cell: the loop body does not fire
      have hne : ¬ s.num 0 k = 0 := by
        rw [hcur, hinit, if_pos hb]; decide
      rw [row0Step_skip m s k hne]
      refine ⟨?_, ?_, ?_⟩
      · intro b hbk
        rcases Nat.lt_succ_iff_lt_or_eq.mp hbk with h | h
        · exact h1 b h
        · rw [h, hcur, hinit, if_pos hb, finVal, if_pos hb]
      · intro a b hab
        refine h2 a b ?_
        rcases hab with h | h
        · exact Or.inl h
        · exact Or.inr (by omega)
      · have hna : ¬ SpecAnchor m (k / m.C) (k % m.C) := by
          rw [hdiv, hmod]
          intro hc
          rcases hc with ⟨_, _, hnb, _⟩ | ⟨_, _, hnb, _⟩ <;> exact hnb hb
        rw [h3, anchorsLT_succ, if_neg hna, Nat.add_zero]
    · -- unblocked cell: it is numbered and the counter advances
      have heq : s.num 0 k = 0 := by rw [hcur, hinit, if_neg hb]
      obtain ⟨hnum, hcnt⟩ := row0Step_fire m s k heq
      have hanc : SpecAnchor m 0 k := anchor_row0 m k hR hk hb
      refine ⟨?_, ?_, ?_⟩
      · intro b hbk
        rcases Nat.lt_succ_iff_lt_or_eq.mp hbk with h | h
        · rw [hnum, updNum_other _ (by omega), h1 b h]
        · subst h
          rw [hnum, updNum_same, h3, finVal, if_neg hb, if_pos hanc]
          have : anchorsBefore m 0 b = anchorsLT m b := by
            unfold anchorsBefore; rw [Nat.zero_mul, Nat.zero_add]
          rw [this]
          push_cast
          ring
      · intro a b hab
        have hne : ¬ (a = 0 ∧ b = k) := by omega
        rw [hnum, updNum_other _ hne]
        refine h2 a b ?_
        rcases hab with h | h
        · exact Or.inl h
        · exact Or.inr (by omega)
      · have hka : SpecAnchor m (k / m.C) (k % m.C) := by rw [hdiv, hmod]; exact hanc
        rw [hcnt, h3, anchorsLT_succ, if_pos hka]
        push_cast
        ring

/-! ## Phase 2: the main nested loop of `get_numbering` -/

/-- Cell `(i, j)` has already been numbered by the look-ahead branch of the
previous scan position `(i, j-1)`: that branch fires exactly when the
previous cell is blocked and `(i, j)` is not. -/
def preassigned (m : Model) (i j : Nat) : Prop :=
  1 ≤ i ∧ 1 ≤ j ∧ j < m.C ∧ SpecBlocked m i (j - 1) ∧ ¬ SpecBlocked m i j

instance (m : Model) (i j : Nat) : Decidable (preassigned m i j) := by
  unfold preassigned; infer_instance

/-- Invariant of the main loop when the scan is about to process position
`(i, j)`: processed cells carry their final value, unprocessed cells are
still at their initial value except for a possible look-ahead assignment
at `(i, j)` itself, and the counter counts the anchors numbered so far. -/
def Inv2 (m : Model) (i j : Nat) (s : NumSt) : Prop :=
  (∀ a b, a < m.R → b < m.C → a * m.C + b < i * m.C + j →
      s.num a b = finVal m a b) ∧
  (∀ a b, a < m.R → b < m.C → i * m.C + j ≤ a * m.C + b →
      s.num a b = if a = i ∧ b = j ∧ preassigned m i j then finVal m a b
        else if SpecBlocked m a b then -1 else 0) ∧
  s.count = 1 + (anchorsLT m (i * m.C + j) : Int) +
    (if preassigned m i j then 1 else 0)

theorem anchor_not_blocked {m : Model} {i j : Nat} (h : SpecAnchor m i j) :
    ¬ SpecBlocked m i j := by
  rcases h with ⟨_, _, hnb, _⟩ | ⟨_, _, hnb, _⟩ <;> exact hnb

theorem mainStep_b1 (m : Model) {s : NumSt} {i j : Nat} (hi : i ≠ 0)
    (h : j = 0 ∧ s.num i j > -1) :
    (mainStep m s i j).num = updNum s.num i j s.count ∧
      (mainStep m s i j).count = s.count + 1 := by
  unfold mainStep
  rw [if_neg hi, if_pos h]
  refine ⟨?_, ?_⟩ <;> (dsimp only; split <;> rfl)

theorem mainStep_b2 (m : Model) {s : NumSt} {i j : Nat} (hi : i ≠ 0)
    (h1 : ¬ (j = 0 ∧ s.num i j > -1))
    (h : s.num i j = 0 ∧ s.num (i - 1) j = -1) :
    (mainStep m s i j).num = updNum s.num i j s.count ∧
      (mainStep m s i j).count = s.count + 1 := by
  unfold mainStep
  rw [if_neg hi, if_neg h1, if_pos h]
  refine ⟨?_, ?_⟩ <;> (dsimp only; split <;> rfl)

theorem mainStep_b3 (m : Model) {s : NumSt} {i j : Nat} (hi : i ≠ 0)
    (h1 : ¬ (j = 0 ∧ s.num i j > -1))
    (h2 : ¬ (s.num i j = 0 ∧ s.num (i - 1) j = -1))
    (h : s.num i j = -1 ∧ j < m.C - 1)
    (hin : s.num i (j + 1) > -1) :
    (mainStep m s i j).num = updNum s.num i (j + 1) s.count ∧
      (mainStep m s i j).count = s.count + 1 := by
  unfold mainStep
  rw [if_neg hi, if_neg h1, if_neg h2, if_pos h, if_pos hin]
  refine ⟨?_, ?_⟩ <;> (dsimp only; split <;> rfl)

theorem mainStep_b3skip (m : Model) {s : NumSt} {i j : Nat} (hi : i ≠ 0)
    (h1 : ¬ (j = 0 ∧ s.num i j > -1))
    (h2 : ¬ (s.num i j = 0 ∧ s.num (i - 1) j = -1))
    (h : s.num i j = -1 ∧ j < m.C - 1)
    (hin : ¬ s.num i (j + 1) > -1) :
    mainStep m s i j = s := by
  unfold mainStep
  rw [if_neg hi, if_neg h1, if_neg h2, if_pos h, if_neg hin]

theorem mainStep_skip (m : Model) {s : NumSt} {i j : Nat} (hi : i ≠ 0)
    (h1 : ¬ (j = 0 ∧ s.num i j > -1))
    (h2 : ¬ (s.num i j = 0 ∧ s.num (i - 1) j = -1))
    (h3 : ¬ (s.num i j = -1 ∧ j < m.C - 1)) :
    mainStep m s i j = s := by
  unfold mainStep
  rw [if_neg hi, if_neg h1, if_neg h2, if_neg h3]

theorem inv2_noop (m : Model) {i j : Nat} {s : NumSt}
    (hiR : i < m.R) (hj : j < m.C) (hI : Inv2 m i j s)
    (hanch : SpecAnchor m i j ↔ preassigned m i j)
    (hpre2 : ¬ preassigned m i (j + 1)) :
    Inv2 m i (j + 1) s := by
  obtain ⟨N1, N2, NC⟩ := hI
  have hpos1 : i * m.C + (j + 1) = (i * m.C + j) + 1 := (Nat.add_assoc _ _ _).symm
  refine ⟨?_, ?_, ?_⟩
  · intro a b haR hbC hlt
    rw [hpos1] at hlt
    rcases Nat.lt_succ_iff_lt_or_eq.mp hlt with h | h
    · exact N1 a b haR hbC h
    · obtain ⟨ha, hb⟩ := pos_inj hbC hj h
      rw [ha, hb]
      by_cases hpre : preassigned m i j
      · rw [N2 i j hiR hj (Nat.le_refl _), if_pos ⟨rfl, rfl, hpre⟩]
      · rw [N2 i j hiR hj (Nat.le_refl _), if_neg
          (show ¬ (i = i ∧ j = j ∧ preassigned m i j) from fun hc => hpre hc.2.2)]
        unfold finVal
        by_cases hbk : SpecBlocked m i j
        · rw [if_pos hbk, if_pos hbk]
        · rw [if_neg hbk, if_neg (fun ha => hpre (hanch.mp ha)), if_neg hbk]
  · intro a b haR hbC hge
    rw [hpos1] at hge
    have hnsp : ¬ (a = i ∧ b = j ∧ preassigned m i j) := by
      rintro ⟨rfl, rfl, _⟩
      exact Nat.not_succ_le_self _ hge
    rw [if_neg (show ¬ (a = i ∧ b = j + 1 ∧ preassigned m i (j + 1)) from
      fun hc => hpre2 hc.2.2)]
    rw [N2 a b haR hbC (Nat.le_of_succ_le hge), if_neg hnsp]
  · rw [NC, hpos1, anchorsLT_succ, pos_div i hj, pos_mod i hj, if_neg hpre2]
    by_cases ha : SpecAnchor m i j
    · rw [if_pos ha, if_pos (hanch.mp ha)]
      push_cast
      ring
    · rw [if_neg ha, if_neg (fun hp => ha (hanch.mpr hp))]
      push_cast
      ring

theorem inv2_assign_cur (m : Model) {i j : Nat} {s s2 : NumSt}
    (hiR : i < m.R) (hj : j < m.C) (hI : Inv2 m i j s)
    (hnb : ¬ SpecBlocked m i j) (hanc : SpecAnchor m i j)
    (hp : ¬ preassigned m i j)
    (hnum : s2.num = updNum s.num i j s.count)
    (hcnt : s2.count = s.count + 1) :
    Inv2 m i (j + 1) s2 := by
  obtain ⟨N1, N2, NC⟩ := hI
  have hpos1 : i * m.C + (j + 1) = (i * m.C + j) + 1 := (Nat.add_assoc _ _ _).symm
  have hpre2 : ¬ preassigned m i (j + 1) := by
    rintro ⟨_, _, _, hb, _⟩
    exact hnb hb
  refine ⟨?_, ?_, ?_⟩
  · intro a b haR hbC hlt
    rw [hpos1] at hlt
    rcases Nat.lt_succ_iff_lt_or_eq.mp hlt with h | h
    · have hne : ¬ (a = i ∧ b = j) := by
        rintro ⟨rfl, rfl⟩
        exact Nat.lt_irrefl _ h
      rw [hnum, updNum_other _ hne]
      exact N1 a b haR hbC h
    · obtain ⟨ha, hb⟩ := pos_inj hbC hj h
      rw [ha, hb, hnum, updNum_same, NC, if_neg hp]
      unfold finVal
      rw [if_neg hnb, if_pos hanc]
      unfold anchorsBefore
      push_cast
      ring
  · intro a b haR hbC hge
    rw [hpos1] at hge
    have hne : ¬ (a = i ∧ b = j) := by
      rintro ⟨rfl, rfl⟩
      exact Nat.not_succ_le_self _ hge
    rw [if_neg (show ¬ (a = i ∧ b = j + 1 ∧ preassigned m i (j + 1)) from
      fun hc => hpre2 hc.2.2)]
    rw [hnum, updNum_other _ hne, N2 a b haR hbC (Nat.le_of_succ_le hge),
      if_neg (show ¬ (a = i ∧ b = j ∧ preassigned m i j) from
        fun hc => hne ⟨hc.1, hc.2.1⟩)]
  · rw [hcnt, NC, if_neg hp, hpos1, anchorsLT_succ, pos_div i hj, pos_mod i hj,
      if_pos hanc, if_neg hpre2]
    push_cast
    ring

theorem inv2_lookahead (m : Model) {i j : Nat} {s s2 : NumSt}
    (h1i : 1 ≤ i) (hiR : i < m.R) (hj1 : j + 1 < m.C) (hI : Inv2 m i j s)
    (hbk : SpecBlocked m i j) (hnb1 : ¬ SpecBlocked m i (j + 1))
    (hnum : s2.num = updNum s.num i (j + 1) s.count)
    (hcnt : s2.count = s.count + 1) :
    Inv2 m i (j + 1) s2 := by
  have hj : j < m.C := by omega
  obtain ⟨N1, N2, NC⟩ := hI
  have hpos1 : i * m.C + (j + 1) = (i * m.C + j) + 1 := (Nat.add_assoc _ _ _).symm
  have hp : ¬ preassigned m i j := fun h => h.2.2.2.2 hbk
  have hpre2 : preassigned m i (j + 1) := ⟨h1i, by omega, hj1, hbk, hnb1⟩
  have hanc1 : SpecAnchor m i (j + 1) := Or.inl ⟨hiR, hj1, hnb1, Or.inr hbk⟩
  have hna : ¬ SpecAnchor m i j := fun h => anchor_not_blocked h hbk
  refine ⟨?_, ?_, ?_⟩
  · intro a b haR hbC hlt
    rw [hpos1] at hlt
    have hne : ¬ (a = i ∧ b = j + 1) := by
      rintro ⟨rfl, rfl⟩
      exact Nat.lt_irrefl _ hlt
    rw [hnum, updNum_other _ hne]
    rcases Nat.lt_succ_iff_lt_or_eq.mp hlt with h | h
    · exact N1 a b haR hbC h
    · obtain ⟨ha, hb⟩ := pos_inj hbC hj h
      rw [ha, hb]
      rw [N2 i j hiR hj (Nat.le_refl _), if_neg
        (show ¬ (i = i ∧ j = j ∧ preassigned m i j) from fun hc => hp hc.2.2)]
      unfold finVal
      rw [if_pos hbk, if_pos hbk]
  · intro a b haR hbC hge
    rw [hpos1] at hge
    by_cases hab : a = i ∧ b = j + 1
    · obtain ⟨ha, hb⟩ := hab
      rw [ha, hb, hnum, updNum_same, if_pos ⟨rfl, rfl, hpre2⟩, NC, if_neg hp]
      unfold finVal
      rw [if_neg hnb1, if_pos hanc1]
      unfold anchorsBefore
      rw [hpos1, anchorsLT_succ, pos_div i hj, pos_mod i hj, if_neg hna]
      push_cast
      ring
    · rw [if_neg (show ¬ (a = i ∧ b = j + 1 ∧ preassigned m i (j + 1)) from
        fun hc => hab ⟨hc.1, hc.2.1⟩)]
      rw [hnum, updNum_other _ hab, N2 a b haR hbC (Nat.le_of_succ_le hge),
        if_neg (show ¬ (a = i ∧ b = j ∧ preassigned m i j) from
          fun hc => hp hc.2.2)]
  · rw [hcnt, NC, if_neg hp, hpos1, anchorsLT_succ, pos_div i hj, pos_mod i hj,
      if_neg hna, if_pos hpre2]
    push_cast
    ring

theorem finVal_eq_neg_one_iff (m : Model) (i j : Nat) :
    finVal m i j = -1 ↔ SpecBlocked m i j := by
  unfold finVal
  by_cases hbk : SpecBlocked m i j
  · simp [hbk]
  · rw [if_neg hbk]
    by_cases ha : SpecAnchor m i j
    · rw [if_pos ha]
      constructor
      · intro h
        exfalso
        have : (0:Int) < ((1 + anchorsBefore m i j : Nat) : Int) := by positivity
        omega
      · intro h
        exact absurd h hbk
    · simp [ha, hbk]

theorem inv2_step (m : Model) {i j : Nat} {s : NumSt}
    (h1i : 1 ≤ i) (hiR : i < m.R) (hj : j < m.C) (hI : Inv2 m i j s) :
    Inv2 m i (j + 1) (mainStep m s i j) := by
  have hi0 : i ≠ 0 := by omega
  have hC : 0 < m.C := by omega
  have hself := hI.2.1 i j hiR hj (Nat.le_refl _)
  by_cases hbk : SpecBlocked m i j
  · -- current cell blocked
    have hp : ¬ preassigned m i j := fun hq => hq.2.2.2.2 hbk
    have hcur : s.num i j = -1 := by
      rw [hself, if_neg (show ¬ (i = i ∧ j = j ∧ preassigned m i j) from
        fun hc => hp hc.2.2), if_pos hbk]
    have hb1 : ¬ (j = 0 ∧ s.num i j > -1) := by
      rintro ⟨_, hgt⟩
      rw [hcur] at hgt
      exact lt_irrefl _ hgt
    have hb2 : ¬ (s.num i j = 0 ∧ s.num (i - 1) j = -1) := by
      rintro ⟨h0, _⟩
      rw [hcur] at h0
      exact absurd h0 (by decide)
    by_cases hj1 : j < m.C - 1
    · have hj1' : j + 1 < m.C := by omega
      have hnext : s.num i (j + 1) =
          if SpecBlocked m i (j + 1) then -1 else 0 := by
        have hle : i * m.C + j ≤ i * m.C + (j + 1) := by omega
        rw [hI.2.1 i (j + 1) hiR hj1' hle, if_neg
          (show ¬ (i = i ∧ j + 1 = j ∧ preassigned m i j) by omega)]
      by_cases hnb1 : SpecBlocked m i (j + 1)
      · have hin : ¬ s.num i (j + 1) > -1 := by
          rw [hnext, if_pos hnb1]
          exact lt_irrefl _
        rw [mainStep_b3skip m hi0 hb1 hb2 ⟨hcur, hj1⟩ hin]
        refine inv2_noop m hiR hj hI ?_ ?_
        · exact iff_of_false (fun ha => anchor_not_blocked ha hbk) hp
        · rintro ⟨_, _, _, _, hn⟩
          exact hn hnb1
      · have hin : s.num i (j + 1) > -1 := by
          rw [hnext, if_neg hnb1]
          decide
        obtain ⟨hnum, hcnt⟩ := mainStep_b3 m hi0 hb1 hb2 ⟨hcur, hj1⟩ hin
        exact inv2_lookahead m h1i hiR hj1' hI hbk hnb1 hnum hcnt
    · have hb3 : ¬ (s.num i j = -1 ∧ j < m.C - 1) := by
        rintro ⟨_, hc⟩
        exact hj1 hc
      rw [mainStep_skip m hi0 hb1 hb2 hb3]
      refine inv2_noop m hiR hj hI ?_ ?_
      · exact iff_of_false (fun ha => anchor_not_blocked ha hbk) hp
      · rintro ⟨_, _, hlt, _, _⟩
        omega
  · -- current cell not blocked
    by_cases hp : preassigned m i j
    · -- already numbered by the previous look-ahead: the scan skips it
      have hanc : SpecAnchor m i j := Or.inl ⟨hiR, hj, hbk, Or.inr hp.2.2.2.1⟩
      have hcur : s.num i j = ((1 + anchorsBefore m i j : Nat) : Int) := by
        rw [hself, if_pos ⟨rfl, rfl, hp⟩]
        unfold finVal
        rw [if_neg hbk, if_pos hanc]
      have hposv : (0:Int) < s.num i j := by
        rw [hcur]
        positivity
      have hb1 : ¬ (j = 0 ∧ s.num i j > -1) := by
        rintro ⟨hj0, _⟩
        have := hp.2.1
        omega
      have hb2 : ¬ (s.num i j = 0 ∧ s.num (i - 1) j = -1) := by
        rintro ⟨h0, _⟩
        rw [h0] at hposv
        exact lt_irrefl _ hposv
      have hb3 : ¬ (s.num i j = -1 ∧ j < m.C - 1) := by
        rintro ⟨h0, _⟩
        rw [h0] at hposv
        exact absurd hposv (by decide)
      rw [mainStep_skip m hi0 hb1 hb2 hb3]
      refine inv2_noop m hiR hj hI (iff_of_true hanc hp) ?_
      rintro ⟨_, _, _, hb, _⟩
      exact hbk hb
    · have hcur : s.num i j = 0 := by
        rw [hself, if_neg (show ¬ (i = i ∧ j = j ∧ preassigned m i j) from
          fun hc => hp hc.2.2), if_neg hbk]
      by_cases hj0 : j = 0
      · subst hj0
        obtain ⟨hnum, hcnt⟩ := mainStep_b1 m hi0 ⟨rfl, by rw [hcur]; decide⟩
        exact inv2_assign_cur m hiR hj hI hbk
          (Or.inl ⟨hiR, hj, hbk, Or.inl rfl⟩) hp hnum hcnt
      · have h1j : 1 ≤ j := by omega
        have hnbl : ¬ SpecBlocked m i (j - 1) := fun hq => hp ⟨h1i, h1j, hj, hq, hbk⟩
        have hb1 : ¬ (j = 0 ∧ s.num i j > -1) := by
          rintro ⟨hc, _⟩
          exact hj0 hc
        have hlt : (i - 1) * m.C + j < i * m.C + j :=
          Nat.add_lt_add_right ((Nat.mul_lt_mul_right hC).mpr (by omega)) j
        have habove : s.num (i - 1) j = finVal m (i - 1) j :=
          hI.1 (i - 1) j (by omega) hj hlt
        by_cases hup : SpecBlocked m (i - 1) j
        · have hm1 : s.num (i - 1) j = -1 := by
            rw [habove, (finVal_eq_neg_one_iff m _ _).mpr hup]
          obtain ⟨hnum, hcnt⟩ := mainStep_b2 m hi0 hb1 ⟨hcur, hm1⟩
          exact inv2_assign_cur m hiR hj hI hbk
            (Or.inr ⟨hiR, hj, hbk, Or.inr hup⟩) hp hnum hcnt
        · have hm1 : s.num (i - 1) j ≠ -1 := by
            rw [habove]
            exact fun hc => hup ((finVal_eq_neg_one_iff m _ _).mp hc)
          have hb2 : ¬ (s.num i j = 0 ∧ s.num (i - 1) j = -1) := by
            rintro ⟨_, hc⟩
            exact hm1 hc
          have hb3 : ¬ (s.num i j = -1 ∧ j < m.C - 1) := by
            rintro ⟨hc, _⟩
            rw [hcur] at hc
            exact absurd hc (by decide)
          rw [mainStep_skip m hi0 hb1 hb2 hb3]
          refine inv2_noop m hiR hj hI ?_ ?_
          · refine iff_of_false ?_ hp
            rintro (⟨_, _, _, hj0c | hbl⟩ | ⟨_, _, _, hi0c | hbu⟩)
            · exact hj0 hj0c
            · exact hnbl hbl
            · exact hi0 hi0c
            · exact hup hbu
          · rintro ⟨_, _, _, hb, _⟩
            exact hbk hb

theorem rowPass_zero (m : Model) (s : NumSt) : rowPass m s 0 = s := by
  have hid : ∀ (t : NumSt) (j : Nat), mainStep m t 0 j = t := by
    intro t j
    unfold mainStep
    rw [if_pos rfl]
  unfold rowPass
  generalize List.range m.C = l
  induction l generalizing s with
  | nil => rfl
  | cons a l ih =>
    rw [List.foldl_cons, hid]
    exact ih s

theorem inv2_init (m : Model) (hR : 0 < m.R) : Inv2 m 1 0 (row0Pass m) := by
  obtain ⟨h1, h2, h3⟩ := inv1_holds m hR
  have hpre : ¬ preassigned m 1 0 := by
    rintro ⟨_, hc, _⟩
    omega
  refine ⟨?_, ?_, ?_⟩
  · intro a b haR hbC hlt
    rw [Nat.one_mul, Nat.add_zero] at hlt
    have ha0 : a = 0 := by
      by_contra hc
      have : 1 * m.C ≤ a * m.C := Nat.mul_le_mul_right m.C (by omega)
      rw [Nat.one_mul] at this
      omega
    subst ha0
    rw [Nat.zero_mul, Nat.zero_add] at hlt
    exact h1 b hlt
  · intro a b haR hbC hge
    rw [Nat.one_mul, Nat.add_zero] at hge
    have ha0 : a ≠ 0 := by
      rintro rfl
      rw [Nat.zero_mul, Nat.zero_add] at hge
      omega
    rw [h2 a b (Or.inl ha0), if_neg (show ¬ (a = 1 ∧ b = 0 ∧ preassigned m 1 0)
      from fun hc => hpre hc.2.2)]
    show (if a < m.R ∧ b < m.C ∧ m.g a b = '.' then (-1:Int) else 0) =
      if SpecBlocked m a b then -1 else 0
    by_cases hbl : SpecBlocked m a b
    · rw [if_pos (show a < m.R ∧ b < m.C ∧ m.g a b = '.' from ⟨haR, hbC, hbl⟩),
        if_pos hbl]
    · rw [if_neg (show ¬ (a < m.R ∧ b < m.C ∧ m.g a b = '.') from
        fun hc => hbl hc.2.2), if_neg hbl]
  · rw [h3, Nat.one_mul, Nat.add_zero, if_neg hpre, add_zero]

theorem inv2_rows (m : Model) (hR : 0 < m.R) :
    ∀ i, 1 ≤ i → i ≤ m.R →
      Inv2 m i 0 ((List.range i).foldl (rowPass m) (row0Pass m)) := by
  intro i
  induction i with
  | zero => omega
  | succ n ih =>
    intro _ hle
    by_cases hn : n = 0
    · subst hn
      rw [List.range_succ, List.range_zero, List.nil_append, List.foldl_cons,
        List.foldl_nil, rowPass_zero]
      exact inv2_init m hR
    · have h1n : 1 ≤ n := by omega
      have hI := ih h1n (by omega)
      rw [List.range_succ, List.foldl_append, List.foldl_cons, List.foldl_nil]
      have hinner : Inv2 m n m.C
          (rowPass m ((List.range n).foldl (rowPass m) (row0Pass m)) n) := by
        unfold rowPass
        exact foldl_range_inv m.C _ _ (fun j s => Inv2 m n j s) hI
          (fun k s hk h => inv2_step m h1n (by omega) hk h)
      obtain ⟨N1, N2, NC⟩ := hinner
      have hnc : n * m.C + m.C = (n + 1) * m.C + 0 := by ring
      have hpreC : ¬ preassigned m n m.C := by
        rintro ⟨_, _, hc, _⟩
        omega
      have hpre0 : ¬ preassigned m (n + 1) 0 := by
        rintro ⟨_, hc, _⟩
        omega
      refine ⟨?_, ?_, ?_⟩
      · intro a b haR hbC hlt
        rw [← hnc] at hlt
        exact N1 a b haR hbC hlt
      · intro a b haR hbC hge
        rw [← hnc] at hge
        rw [N2 a b haR hbC hge, if_neg (show ¬ (a = n ∧ b = m.C ∧
            preassigned m n m.C) from fun hc => hpreC hc.2.2),
          if_neg (show ¬ (a = n + 1 ∧ b = 0 ∧ preassigned m (n + 1) 0) from
            fun hc => hpre0 hc.2.2)]
      · rw [NC, hnc, if_neg hpreC, if_neg hpre0]

/-- Closed-form characterization of the Numbering Grid: the imperative
scan of `get_numbering` computes exactly `finVal`. -/
theorem numbering_closed (m : Model) {i j : Nat}
    (hiR : i < m.R) (hj : j < m.C) : finalNum m i j = finVal m i j := by
  have hR : 0 < m.R := by omega
  have hI := inv2_rows m hR m.R hR (Nat.le_refl _)
  have hlt : i * m.C + j < m.R * m.C + 0 := by
    have h1 : i * m.C + j < (i + 1) * m.C := by
      rw [Nat.succ_mul]
      omega
    have h2 : (i + 1) * m.C ≤ m.R * m.C := Nat.mul_le_mul_right m.C (by omega)
    omega
  exact hI.1 i j hiR hj hlt

/-! ## Consequences of the closed form -/

theorem finalNum_blocked_iff (m : Model) {i j : Nat}
    (hiR : i < m.R) (hj : j < m.C) :
    finalNum m i j = -1 ↔ SpecBlocked m i j := by
  rw [numbering_closed m hiR hj]
  exact finVal_eq_neg_one_iff m i j

theorem finalNum_gt_iff (m : Model) {i j : Nat}
    (hiR : i < m.R) (hj : j < m.C) :
    finalNum m i j > -1 ↔ ¬ SpecBlocked m i j := by
  rw [numbering_closed m hiR hj]
  unfold finVal
  by_cases hbk : SpecBlocked m i j
  · simp [hbk]
  · rw [if_neg hbk]
    refine iff_of_true ?_ hbk
    by_cases ha : SpecAnchor m i j
    · rw [if_pos ha]
      have : (0:Int) ≤ ((1 + anchorsBefore m i j : Nat) : Int) := by positivity
      omega
    · rw [if_neg ha]
      decide

theorem finalNum_pos_iff (m : Model) {i j : Nat}
    (hiR : i < m.R) (hj : j < m.C) :
    0 < finalNum m i j ↔ SpecAnchor m i j := by
  rw [numbering_closed m hiR hj]
  unfold finVal
  by_cases hbk : SpecBlocked m i j
  · rw [if_pos hbk]
    exact iff_of_false (by decide) (fun ha => anchor_not_blocked ha hbk)
  · rw [if_neg hbk]
    by_cases ha : SpecAnchor m i j
    · rw [if_pos ha]
      refine iff_of_true ?_ ha
      have : (0:Int) < ((1 + anchorsBefore m i j : Nat) : Int) := by positivity
      omega
    · rw [if_neg ha]
      exact iff_of_false (by decide) ha

theorem finalNum_anchor (m : Model) {i j : Nat}
    (hiR : i < m.R) (hj : j < m.C) (ha : SpecAnchor m i j) :
    finalNum m i j = ((1 + anchorsBefore m i j : Nat) : Int) := by
  rw [numbering_closed m hiR hj]
  unfold finVal
  rw [if_neg (anchor_not_blocked ha), if_pos ha]

/-- Every in-range numbering entry is `-1`, `0`, or positive. -/
theorem finalNum_cases (m : Model) {i j : Nat}
    (hiR : i < m.R) (hj : j < m.C) :
    finalNum m i j = -1 ∨ finalNum m i j = 0 ∨ 0 < finalNum m i j := by
  rw [numbering_closed m hiR hj]
  unfold finVal
  by_cases hbk : SpecBlocked m i j
  · rw [if_pos hbk]
    exact Or.inl rfl
  · rw [if_neg hbk]
    by_cases ha : SpecAnchor m i j
    · rw [if_pos ha]
      refine Or.inr (Or.inr ?_)
      have : (0:Int) < ((1 + anchorsBefore m i j : Nat) : Int) := by positivity
      omega
    · rw [if_neg ha]
      exact Or.inr (Or.inl rfl)

/-- Distinct anchor cells carry distinct (positive) numbers: the counter
is strictly increasing along the scan. -/
theorem finalNum_inj (m : Model) {a b i j : Nat}
    (haR : a < m.R) (hbC : b < m.C) (hiR : i < m.R) (hjC : j < m.C)
    (hpos : 0 < finalNum m a b)
    (heq : finalNum m a b = finalNum m i j) : a = i ∧ b = j := by
  have ha : SpecAnchor m a b := (finalNum_pos_iff m haR hbC).mp hpos
  have hi : SpecAnchor m i j := (finalNum_pos_iff m hiR hjC).mp (heq ▸ hpos)
  rw [finalNum_anchor m haR hbC ha, finalNum_anchor m hiR hjC hi] at heq
  have hcnt : anchorsBefore m a b = anchorsBefore m i j := by
    have := Int.ofNat.inj heq
    omega
  by_cases hne : a * m.C + b = i * m.C + j
  · exact pos_inj hbC hjC hne
  · exfalso
    rcases Nat.lt_or_ge (a * m.C + b) (i * m.C + j) with hlt | hge
    · have hs : SpecAnchor m ((a * m.C + b) / m.C) ((a * m.C + b) % m.C) := by
        rw [pos_div a hbC, pos_mod a hbC]
        exact ha
      have := anchorsLT_strict m hlt hs
      unfold anchorsBefore at hcnt
      omega
    · have hlt : i * m.C + j < a * m.C + b := by omega
      have hs : SpecAnchor m ((i * m.C + j) / m.C) ((i * m.C + j) % m.C) := by
        rw [pos_div i hjC, pos_mod i hjC]
        exact hi
      have := anchorsLT_strict m hlt hs
      unfold anchorsBefore at hcnt
      omega

/-! ## The per-row / per-column start-number lists of `get_numbering` -/

/-- The `across_starts` entry for one row: the loop over `row[:n_cols]`
appending `num` when the cell is at column 0, or its left neighbor (with
Python index wraparound at 0) is blocked, and the cell itself is not. -/
def acrossStartsRow (m : Model) (i : Nat) : List Int :=
  (List.range m.C).foldl (fun acc p =>
    if p = 0 ∧ finalNum m i p > -1 then acc ++ [finalNum m i p]
    else if finalNum m i (pyIdx m.C p) = -1 then
      (if finalNum m i p > -1 then acc ++ [finalNum m i p] else acc)
    else acc) []

/-- `self._across_starts`. -/
def acrossStarts (m : Model) : List (List Int) :=
  (List.range m.R).map (acrossStartsRow m)

/-- The `down_starts` entry for one column of the transposed numbering. -/
def downStartsCol (m : Model) (j : Nat) : List Int :=
  (List.range m.R).foldl (fun acc p =>
    if p = 0 ∧ finalNum m p j > -1 then acc ++ [finalNum m p j]
    else if finalNum m (pyIdx m.R p) j = -1 then
      (if finalNum m p j > -1 then acc ++ [finalNum m p j] else acc)
    else acc) []

/-- `self._down_starts`. -/
def downStarts (m : Model) : List (List Int) :=
  (List.range m.C).map (downStartsCol m)

/-- Positions of the across-run heads of row `i`, left to right. -/
def SpecAcrossHeads (m : Model) (i : Nat) : List Nat :=
  (List.range m.C).filter (fun p => decide (SpecAcrossStart m i p))

/-- Positions of the down-run heads of column `j`, top to bottom. -/
def SpecDownHeads (m : Model) (j : Nat) : List Nat :=
  (List.range m.R).filter (fun p => decide (SpecDownStart m p j))

theorem foldl_congr_mem {α β : Type _} (l : List α) (f g : β → α → β)
    (init : β) (h : ∀ b a, a ∈ l → f b a = g b a) :
    l.foldl f init = l.foldl g init := by
  induction l generalizing init with
  | nil => rfl
  | cons a l ih =>
    rw [List.foldl_cons, List.foldl_cons, h init a (List.mem_cons_self a l)]
    exact ih _ (fun b x hx => h b x (List.mem_cons_of_mem a hx))

theorem foldl_filter_map {α : Type _} (l : List Nat) (q : Nat → Prop)
    [DecidablePred q] (f : Nat → α) :
    ∀ acc, l.foldl (fun acc p => if q p then acc ++ [f p] else acc) acc =
      acc ++ (l.filter (fun p => decide (q p))).map f := by
  induction l with
  | nil => intro acc; simp
  | cons a l ih =>
    intro acc
    rw [List.foldl_cons]
    by_cases hq : q a
    · rw [if_pos hq, ih, List.filter_cons_of_pos (by simpa using hq)]
      simp
    · rw [if_neg hq, ih, List.filter_cons_of_neg (by simpa using hq)]

theorem acrossStartsRow_eq (m : Model) {i : Nat} (hi : i < m.R) :
    acrossStartsRow m i = (SpecAcrossHeads m i).map (fun p => finalNum m i p) := by
  unfold acrossStartsRow SpecAcrossHeads
  have hcong : (List.range m.C).foldl (fun acc p =>
      if p = 0 ∧ finalNum m i p > -1 then acc ++ [finalNum m i p]
      else if finalNum m i (pyIdx m.C p) = -1 then
        (if finalNum m i p > -1 then acc ++ [finalNum m i p] else acc)
      else acc) [] =
    (List.range m.C).foldl (fun acc p =>
      if SpecAcrossStart m i p then acc ++ [finalNum m i p] else acc) [] := by
    refine foldl_congr_mem _ _ _ _ ?_
    intro acc p hp
    have hpC : p < m.C := List.mem_range.mp hp
    by_cases hbk : SpecBlocked m i p
    · have hv : ¬ finalNum m i p > -1 := by
        rw [finalNum_gt_iff m hi hpC]
        exact fun hc => hc hbk
      have hns : ¬ SpecAcrossStart m i p := fun hc => hc.2.2.1 hbk
      rw [if_neg (fun hc : p = 0 ∧ _ => hv hc.2), if_neg hns]
      by_cases hB : finalNum m i (pyIdx m.C p) = -1
      · rw [if_pos hB, if_neg hv]
      · rw [if_neg hB]
    · have hv : finalNum m i p > -1 := (finalNum_gt_iff m hi hpC).mpr hbk
      by_cases hp0 : p = 0
      · rw [if_pos ⟨hp0, hv⟩, if_pos ⟨hi, hpC, hbk, Or.inl hp0⟩]
      · rw [if_neg (fun hc : p = 0 ∧ _ => hp0 hc.1)]
        have hidx : pyIdx m.C p = p - 1 := if_neg hp0
        have hp1C : p - 1 < m.C := by omega
        by_cases hB : SpecBlocked m i (p - 1)
        · have hBv : finalNum m i (pyIdx m.C p) = -1 := by
            rw [hidx]
            exact (finalNum_blocked_iff m hi hp1C).mpr hB
          rw [if_pos hBv, if_pos hv, if_pos ⟨hi, hpC, hbk, Or.inr hB⟩]
        · have hBv : ¬ finalNum m i (pyIdx m.C p) = -1 := by
            rw [hidx]
            exact fun hc => hB ((finalNum_blocked_iff m hi hp1C).mp hc)
          have hns : ¬ SpecAcrossStart m i p := by
            rintro ⟨_, _, _, hc | hc⟩
            · exact hp0 hc
            · exact hB hc
          rw [if_neg hBv, if_neg hns]
  rw [hcong, foldl_filter_map, List.nil_append]

theorem downStartsCol_eq (m : Model) {j : Nat} (hj : j < m.C) :
    downStartsCol m j = (SpecDownHeads m j).map (fun p => finalNum m p j) := by
  unfold downStartsCol SpecDownHeads
  have hcong : (List.range m.R).foldl (fun acc p =>
      if p = 0 ∧ finalNum m p j > -1 then acc ++ [finalNum m p j]
      else if finalNum m (pyIdx m.R p) j = -1 then
        (if finalNum m p j > -1 then acc ++ [finalNum m p j] else acc)
      else acc) [] =
    (List.range m.R).foldl (fun acc p =>
      if SpecDownStart m p j then acc ++ [finalNum m p j] else acc) [] := by
    refine foldl_congr_mem _ _ _ _ ?_
    intro acc p hp
    have hpR : p < m.R := List.mem_range.mp hp
    by_cases hbk : SpecBlocked m p j
    · have hv : ¬ finalNum m p j > -1 := by
        rw [finalNum_gt_iff m hpR hj]
        exact fun hc => hc hbk
      have hns : ¬ SpecDownStart m p j := fun hc => hc.2.2.1 hbk
      rw [if_neg (fun hc : p = 0 ∧ _ => hv hc.2), if_neg hns]
      by_cases hB : finalNum m (pyIdx m.R p) j = -1
      · rw [if_pos hB, if_neg hv]
      · rw [if_neg hB]
    · have hv : finalNum m p j > -1 := (finalNum_gt_iff m hpR hj).mpr hbk
      by_cases hp0 : p = 0
      · rw [if_pos ⟨hp0, hv⟩, if_pos ⟨hpR, hj, hbk, Or.inl hp0⟩]
      · rw [if_neg (fun hc : p = 0 ∧ _ => hp0 hc.1)]
        have hidx : pyIdx m.R p = p - 1 := if_neg hp0
        have hp1R : p - 1 < m.R := by omega
        by_cases hB : SpecBlocked m (p - 1) j
        · have hBv : finalNum m (pyIdx m.R p) j = -1 := by
            rw [hidx]
            exact (finalNum_blocked_iff m hp1R hj).mpr hB
          rw [if_pos hBv, if_pos hv, if_pos ⟨hpR, hj, hbk, Or.inr hB⟩]
        · have hBv : ¬ finalNum m (pyIdx m.R p) j = -1 := by
            rw [hidx]
            exact fun hc => hB ((finalNum_blocked_iff m hp1R hj).mp hc)
          have hns : ¬ SpecDownStart m p j := by
            rintro ⟨_, _, _, hc | hc⟩
            · exact hp0 hc
            · exact hB hc
          rw [if_neg hBv, if_neg hns]
  rw [hcong, foldl_filter_map, List.nil_append]

/-! ## Word segmentation: splitting rows and columns on the block marker -/

/-- Row `i` of the grid, `self.grid[i]`, as a character list. -/
def rowChars (m : Model) (i : Nat) : List Char := (List.range m.C).map (m.g i)

/-- Column `j` of the grid, one entry of `grid_flip`. -/
def colChars (m : Model) (j : Nat) : List Char :=
  (List.range m.R).map (fun i => m.g i j)

/-- Python `s.split('.')` on a character list: always returns at least one
(possibly empty) fragment, and one extra fragment per separator. -/
def splitDot : List Char → List (List Char)
  | [] => [[]]
  | c :: cs =>
    match splitDot cs with
    | [] => [[]]
    | h :: t => if c = '.' then [] :: h :: t else (c :: h) :: t

/-- `self._across_words`: each row split on `'.'`, empty fragments
discarded. -/
def acrossWords (m : Model) : List (List (List Char)) :=
  (List.range m.R).map (fun i =>
    (splitDot (rowChars m i)).filter (fun b => decide (0 < b.length)))

/-- `self._down_words`: each column split on `'.'`, empty fragments
discarded. -/
def downWords (m : Model) : List (List (List Char)) :=
  (List.range m.C).map (fun j =>
    (splitDot (colChars m j)).filter (fun b => decide (0 < b.length)))

/-- `p` is the head position of a maximal unblocked run of `l`. -/
def headAt (l : List Char) (p : Nat) : Prop :=
  p < l.length ∧ l.getD p '.' ≠ '.' ∧ (p = 0 ∨ l.getD (p - 1) '.' = '.')

instance (l : List Char) (p : Nat) : Decidable (headAt l p) := by
  unfold headAt; infer_instance

/-- Head positions of the maximal unblocked runs of `l`, in order. -/
def runHeads (l : List Char) : List Nat :=
  (List.range l.length).filter (fun p => decide (headAt l p))

/-- The maximal unblocked run of `l` starting at position `p`. -/
def runFrom (l : List Char) (p : Nat) : List Char :=
  (l.drop p).takeWhile (fun c => decide (c ≠ '.'))

theorem splitDot_ne_nil (l : List Char) : splitDot l ≠ [] := by
  cases l with
  | nil => simp [splitDot]
  | cons c cs =>
    unfold splitDot
    cases splitDot cs with
    | nil => simp
    | cons h t =>
      by_cases hc : c = '.' <;> simp [hc]

theorem splitDot_cons (c : Char) (cs : List Char) :
    splitDot (c :: cs) = match splitDot cs with
      | [] => [[]]
      | h :: t => if c = '.' then [] :: h :: t else (c :: h) :: t := rfl

theorem splitDot_cons_dot (cs : List Char) :
    splitDot ('.' :: cs) = [] :: splitDot cs := by
  rw [splitDot_cons]
  rcases he : splitDot cs with _ | ⟨h, t⟩
  · exact absurd he (splitDot_ne_nil cs)
  · simp

theorem splitDot_no_dot (l : List Char) (h : ∀ c ∈ l, c ≠ '.') :
    splitDot l = [l] := by
  induction l with
  | nil => rfl
  | cons c cs ih =>
    rw [splitDot_cons, ih (fun x hx => h x (List.mem_cons_of_mem c hx))]
    simp [h c (List.mem_cons_self c cs)]

theorem splitDot_append_dot (u v : List Char) (h : ∀ c ∈ u, c ≠ '.') :
    splitDot (u ++ '.' :: v) = u :: splitDot v := by
  induction u with
  | nil => exact splitDot_cons_dot v
  | cons c u ih =>
    have hih := ih (fun x hx => h x (List.mem_cons_of_mem c hx))
    show splitDot (c :: (u ++ '.' :: v)) = (c :: u) :: splitDot v
    rw [splitDot_cons, hih]
    simp [h c (List.mem_cons_self c u)]

theorem dropWhile_head_false {p : Char → Bool} :
    ∀ (l : List Char) (e : Char) (t : List Char),
      l.dropWhile p = e :: t → p e = false := by
  intro l
  induction l with
  | nil => intro e t h; simp [List.dropWhile] at h
  | cons c cs ih =>
    intro e t h
    rw [List.dropWhile_cons] at h
    by_cases hc : p c = true
    · rw [if_pos hc] at h
      exact ih e t h
    · rw [if_neg hc] at h
      cases h
      simpa using hc

theorem getD_mem_of_lt (l : List Char) (n : Nat) (d : Char)
    (h : n < l.length) : l.getD n d ∈ l := by
  rw [List.getD_eq_getElem l d h]
  exact List.getElem_mem h

theorem headAt_cons_dot (cs : List Char) (p : Nat) :
    headAt ('.' :: cs) (p + 1) ↔ headAt cs p := by
  unfold headAt
  constructor
  · rintro ⟨h1, h2, h3⟩
    refine ⟨by simpa using h1, h2, ?_⟩
    cases p with
    | zero => exact Or.inl rfl
    | succ q =>
      rcases h3 with h | h
      · omega
      · exact Or.inr h
  · rintro ⟨h1, h2, h3⟩
    refine ⟨by simpa using h1, h2, Or.inr ?_⟩
    cases p with
    | zero => rfl
    | succ q =>
      rcases h3 with h | h
      · omega
      · exact h

theorem runHeads_cons_dot (cs : List Char) :
    runHeads ('.' :: cs) = (runHeads cs).map Nat.succ := by
  unfold runHeads
  rw [List.length_cons, List.range_succ_eq_map]
  rw [List.filter_cons_of_neg (by simp [headAt])]
  rw [List.filter_map]
  congr 1
  apply List.filter_congr
  intro p _
  simp only [Function.comp_apply, decide_eq_decide]
  exact headAt_cons_dot cs p

theorem runHeads_no_dot (l : List Char) (hne : l ≠ [])
    (h : ∀ c ∈ l, c ≠ '.') : runHeads l = [0] := by
  rcases l with _ | ⟨c, cs⟩
  · exact absurd rfl hne
  · unfold runHeads
    rw [List.length_cons, List.range_succ_eq_map]
    rw [List.filter_cons_of_pos]
    · rw [List.filter_map]
      have : List.filter ((fun p => decide (headAt (c :: cs) p)) ∘ Nat.succ)
          (List.range cs.length) = [] := by
        apply List.filter_eq_nil_iff.mpr
        intro p hp
        simp only [Function.comp_apply, decide_eq_true_eq]
        rintro ⟨_, _, h3⟩
        rcases h3 with h3 | h3
        · omega
        · have hm : (c :: cs).getD (Nat.succ p - 1) '.' ∈ c :: cs := by
            apply getD_mem_of_lt
            have := List.mem_range.mp hp
            simp
            omega
          exact h _ hm h3
      rw [this, List.map_nil]
    · simp only [decide_eq_true_eq]
      exact ⟨by simp, h c (List.mem_cons_self c cs), Or.inl rfl⟩

theorem runFrom_no_dot (l : List Char) (h : ∀ c ∈ l, c ≠ '.') :
    runFrom l 0 = l := by
  unfold runFrom
  rw [List.drop_zero]
  induction l with
  | nil => rfl
  | cons c cs ih =>
    rw [List.takeWhile_cons, if_pos (by simpa using h c (List.mem_cons_self c cs))]
    rw [ih (fun x hx => h x (List.mem_cons_of_mem c hx))]

theorem runFrom_append_dot (u v : List Char) (h : ∀ c ∈ u, c ≠ '.') :
    runFrom (u ++ '.' :: v) 0 = u := by
  unfold runFrom
  rw [List.drop_zero]
  induction u with
  | nil => simp [List.takeWhile_cons]
  | cons c u ih =>
    rw [List.cons_append, List.takeWhile_cons,
      if_pos (by simpa using h c (List.mem_cons_self c u))]
    rw [ih (fun x hx => h x (List.mem_cons_of_mem c hx))]

theorem drop_append_len {α : Type _} :
    ∀ (u : List α) (n : Nat) (w : List α), (u ++ w).drop (u.length + n) = w.drop n := by
  intro u
  induction u with
  | nil => intro n w; simp
  | cons c u ih =>
    intro n w
    rw [List.cons_append, List.length_cons, Nat.succ_add, List.drop_succ_cons]
    exact ih n w

theorem runFrom_append_shift (u v : List Char) (p : Nat) :
    runFrom (u ++ '.' :: v) (u.length + 1 + p) = runFrom v p := by
  unfold runFrom
  rw [Nat.add_assoc, drop_append_len, Nat.add_comm 1 p, List.drop_succ_cons]

theorem getD_append_mid (u v : List Char) :
    (u ++ '.' :: v).getD u.length '.' = '.' := by
  rw [List.getD_append_right u ('.' :: v) '.' u.length (Nat.le_refl _),
    Nat.sub_self]
  rfl

theorem getD_append_shift (u v : List Char) (p : Nat) :
    (u ++ '.' :: v).getD (u.length + 1 + p) '.' = v.getD p '.' := by
  rw [List.getD_append_right u ('.' :: v) '.' _ (by omega)]
  have : u.length + 1 + p - u.length = p + 1 := by omega
  rw [this]
  rfl

theorem headAt_append_shift (u v : List Char) (p : Nat) :
    headAt (u ++ '.' :: v) (u.length + 1 + p) ↔ headAt v p := by
  unfold headAt
  have hlen : (u ++ '.' :: v).length = u.length + 1 + v.length := by
    simp [List.length_append]
    omega
  constructor
  · rintro ⟨h1, h2, h3⟩
    rw [hlen] at h1
    rw [getD_append_shift] at h2
    refine ⟨by omega, h2, ?_⟩
    cases p with
    | zero => exact Or.inl rfl
    | succ q =>
      rcases h3 with h | h
      · omega
      · right
        have harith : u.length + 1 + (q + 1) - 1 = u.length + 1 + q := by omega
        rw [harith, getD_append_shift] at h
        exact h
  · rintro ⟨h1, h2, h3⟩
    refine ⟨by rw [hlen]; omega, by rw [getD_append_shift]; exact h2, Or.inr ?_⟩
    cases p with
    | zero =>
      have harith : u.length + 1 + 0 - 1 = u.length := by omega
      rw [harith]
      exact getD_append_mid u v
    | succ q =>
      rcases h3 with h | h
      · omega
      · have harith : u.length + 1 + (q + 1) - 1 = u.length + 1 + q := by omega
        rw [harith, getD_append_shift]
        exact h

theorem runHeads_append (u v : List Char) (hu : u ≠ [])
    (h : ∀ c ∈ u, c ≠ '.') :
    runHeads (u ++ '.' :: v) =
      0 :: (runHeads v).map (fun p => u.length + 1 + p) := by
  unfold runHeads
  have hlen : (u ++ '.' :: v).length = (u.length + 1) + v.length := by
    simp [List.length_append]
    omega
  rw [hlen, List.range_add, List.filter_append, List.range_succ_eq_map]
  have hu0 : headAt (u ++ '.' :: v) 0 := by
    rcases u with _ | ⟨c, u'⟩
    · exact absurd rfl hu
    · exact ⟨by simp, by simpa using h c (List.mem_cons_self c u'), Or.inl rfl⟩
  rw [List.filter_cons_of_pos (by simpa using hu0)]
  have h1 : List.filter ((fun p => decide (headAt (u ++ '.' :: v) p)) ∘ Nat.succ)
      (List.range u.length) = [] := by
    apply List.filter_eq_nil_iff.mpr
    intro p hp
    have hpu : p < u.length := List.mem_range.mp hp
    simp only [Function.comp_apply, decide_eq_true_eq]
    rintro ⟨_, h2, h3⟩
    rcases Nat.lt_or_ge (p + 1) u.length with hlt | hge
    · rcases h3 with h3 | h3
      · omega
      · have : (u ++ '.' :: v).getD (p + 1 - 1) '.' ∈ u := by
          have harith : p + 1 - 1 = p := rfl
          rw [harith, List.getD_append u ('.' :: v) '.' p hpu]
          exact getD_mem_of_lt u p '.' hpu
        exact h _ this h3
    · have hpe : p.succ = u.length := by omega
      rw [hpe, getD_append_mid u v] at h2
      exact h2 rfl
  rw [List.filter_map, h1, List.map_nil]
  have h2 : List.filter (fun p => decide (headAt (u ++ '.' :: v) p))
        (List.map (fun x => u.length + 1 + x) (List.range v.length)) =
      (List.filter (fun p => decide (headAt v p)) (List.range v.length)).map
        (fun x => u.length + 1 + x) := by
    rw [List.filter_map]
    congr 1
    apply List.filter_congr
    intro p _
    simp only [Function.comp_apply, decide_eq_decide]
    exact headAt_append_shift u v p
  rw [h2]
  rfl

/-- The non-empty fragments of a row split on the block marker are exactly
its maximal unblocked runs, in head-position order. -/
theorem splitDot_runs (l : List Char) :
    (splitDot l).filter (fun b => decide (0 < b.length)) =
      (runHeads l).map (runFrom l) := by
  have main : ∀ (N : Nat) (l : List Char), l.length ≤ N →
      (splitDot l).filter (fun b => decide (0 < b.length)) =
        (runHeads l).map (runFrom l) := by
    intro N
    induction N with
    | zero =>
      intro l hl
      have : l = [] := List.eq_nil_of_length_eq_zero (by omega)
      subst this
      rfl
    | succ N ih =>
      intro l hlen
      rcases l with _ | ⟨c, cs⟩
      · rfl
      · by_cases hc : c = '.'
        · subst hc
          rw [splitDot_cons_dot, runHeads_cons_dot,
            List.filter_cons_of_neg (by simp)]
          rw [ih cs (by simpa using hlen), List.map_map]
          apply List.map_congr_left
          intro p _
          rfl
        · rcases hd : cs.dropWhile (fun x => decide (x ≠ '.')) with _ | ⟨e, d⟩
          · have htk : cs.takeWhile (fun x => decide (x ≠ '.')) = cs := by
              have hh := List.takeWhile_append_dropWhile
                (fun x => decide (x ≠ '.')) cs
              rw [hd, List.append_nil] at hh
              exact hh
            have hcs : ∀ x ∈ cs, x ≠ '.' := by
              intro x hx
              rw [← htk] at hx
              simpa using List.mem_takeWhile_imp hx
            have hl : ∀ x ∈ c :: cs, x ≠ '.' := by
              intro x hx
              rcases List.mem_cons.mp hx with rfl | hx
              · exact hc
              · exact hcs x hx
            rw [splitDot_no_dot _ hl, runHeads_no_dot _ (by simp) hl,
              List.map_cons, List.map_nil, runFrom_no_dot _ hl,
              List.filter_cons_of_pos (by simp)]
            rfl
          · have he : e = '.' := by
              have hf := dropWhile_head_false cs e d hd
              simpa using hf
            subst he
            have hcs : cs = cs.takeWhile (fun x => decide (x ≠ '.')) ++ '.' :: d := by
              conv_lhs => rw [← List.takeWhile_append_dropWhile
                (fun x => decide (x ≠ '.')) cs]
              rw [hd]
            have hund : ∀ x ∈ c :: cs.takeWhile (fun x => decide (x ≠ '.')), x ≠ '.' := by
              intro x hx
              rcases List.mem_cons.mp hx with rfl | hx
              · exact hc
              · simpa using List.mem_takeWhile_imp hx
            have hl : c :: cs = (c :: cs.takeWhile (fun x => decide (x ≠ '.'))) ++ '.' :: d := by
              rw [List.cons_append, ← hcs]
            have hdlen : d.length ≤ N := by
              have h1 : cs.length ≤ N := by simpa using hlen
              have h2 : cs.length =
                  (cs.takeWhile (fun x => decide (x ≠ '.'))).length + (1 + d.length) := by
                conv_lhs => rw [hcs]
                simp [List.length_append]
                omega
              omega
            rw [hl, splitDot_append_dot _ d hund,
              runHeads_append _ d (by simp) hund,
              List.filter_cons_of_pos (by simp),
              List.map_cons, runFrom_append_dot _ d hund,
              List.map_map, ih d hdlen]
            congr 1
            apply List.map_congr_left
            intro p _
            exact (runFrom_append_shift _ d p).symm
  exact main l.length l (Nat.le_refl _)

/-! ## Rows and columns as character lists -/

theorem rowChars_length (m : Model) (i : Nat) : (rowChars m i).length = m.C := by
  simp [rowChars]

theorem colChars_length (m : Model) (j : Nat) : (colChars m j).length = m.R := by
  simp [colChars]

theorem rowChars_getD (m : Model) {i p : Nat} (hp : p < m.C) :
    (rowChars m i).getD p '.' = m.g i p := by
  unfold rowChars
  rw [List.getD_eq_getElem _ _ (by simpa using hp)]
  simp

theorem colChars_getD (m : Model) {j p : Nat} (hp : p < m.R) :
    (colChars m j).getD p '.' = m.g p j := by
  unfold colChars
  rw [List.getD_eq_getElem _ _ (by simpa using hp)]
  simp

theorem headAt_rowChars (m : Model) {i : Nat} (hi : i < m.R) (p : Nat) :
    headAt (rowChars m i) p ↔ SpecAcrossStart m i p := by
  unfold headAt SpecAcrossStart SpecBlocked
  rw [rowChars_length]
  constructor
  · rintro ⟨h1, h2, h3⟩
    rw [rowChars_getD m h1] at h2
    refine ⟨hi, h1, h2, ?_⟩
    rcases h3 with h3 | h3
    · exact Or.inl h3
    · rw [rowChars_getD m (by omega)] at h3
      exact Or.inr h3
  · rintro ⟨_, h1, h2, h3⟩
    refine ⟨h1, by rw [rowChars_getD m h1]; exact h2, ?_⟩
    rcases h3 with h3 | h3
    · exact Or.inl h3
    · rw [rowChars_getD m (show p - 1 < m.C by omega)]
      exact Or.inr h3

theorem headAt_colChars (m : Model) {j : Nat} (hj : j < m.C) (p : Nat) :
    headAt (colChars m j) p ↔ SpecDownStart m p j := by
  unfold headAt SpecDownStart SpecBlocked
  rw [colChars_length]
  constructor
  · rintro ⟨h1, h2, h3⟩
    rw [colChars_getD m h1] at h2
    refine ⟨h1, hj, h2, ?_⟩
    rcases h3 with h3 | h3
    · exact Or.inl h3
    · rw [colChars_getD m (by omega)] at h3
      exact Or.inr h3
  · rintro ⟨h1, _, h2, h3⟩
    refine ⟨h1, by rw [colChars_getD m h1]; exact h2, ?_⟩
    rcases h3 with h3 | h3
    · exact Or.inl h3
    · rw [colChars_getD m (show p - 1 < m.R by omega)]
      exact Or.inr h3

theorem runHeads_rowChars (m : Model) {i : Nat} (hi : i < m.R) :
    runHeads (rowChars m i) = SpecAcrossHeads m i := by
  unfold runHeads SpecAcrossHeads
  rw [rowChars_length]
  apply List.filter_congr
  intro p _
  simp only [decide_eq_decide]
  exact headAt_rowChars m hi p

theorem runHeads_colChars (m : Model) {j : Nat} (hj : j < m.C) :
    runHeads (colChars m j) = SpecDownHeads m j := by
  unfold runHeads SpecDownHeads
  rw [colChars_length]
  apply List.filter_congr
  intro p _
  simp only [decide_eq_decide]
  exact headAt_colChars m hj p

theorem acrossWords_row (m : Model) {i : Nat} (hi : i < m.R) :
    (splitDot (rowChars m i)).filter (fun b => decide (0 < b.length)) =
      (SpecAcrossHeads m i).map (runFrom (rowChars m i)) := by
  rw [splitDot_runs, runHeads_rowChars m hi]

theorem downWords_col (m : Model) {j : Nat} (hj : j < m.C) :
    (splitDot (colChars m j)).filter (fun b => decide (0 < b.length)) =
      (SpecDownHeads m j).map (runFrom (colChars m j)) := by
  rw [splitDot_runs, runHeads_colChars m hj]

/-! ## Python dictionaries as association lists -/

/-- Python dict assignment `d[k] = v`: replace in place when the key is
present, append otherwise (iteration order is insertion order). -/
def dictSet {α β : Type _} [DecidableEq α] (d : List (α × β)) (k : α) (v : β) :
    List (α × β) :=
  if k ∈ d.map Prod.fst then
    d.map (fun p => if p.1 = k then (k, v) else p)
  else d ++ [(k, v)]

/-- Python dict lookup `d[k]`, `none` modelling `KeyError`. -/
def dictLookup {α β : Type _} [DecidableEq α] (d : List (α × β)) (k : α) :
    Option β :=
  (d.find? (fun p => decide (p.1 = k))).map Prod.snd

/-- `get_answer_dict`, one direction: `for i, start_row in
enumerate(starts): for j, num in enumerate(start_row):
dict[num] = words[i][j]`, with `none` modelling the `IndexError` raised
when a fragment index is out of range. -/
def buildAnswerSide (starts : List (List Int))
    (words : List (List (List Char))) : Option (List (Int × List Char)) :=
  starts.enum.foldlM (fun d iRow =>
    iRow.2.enum.foldlM (fun d jn => do
      let wrow ← words.get? iRow.1
      let w ← wrow.get? jn.1
      pure (dictSet d jn.2 w)) d) []

/-- `get_answer_dict`: builds both directions, then asserts that each
dictionary has as many entries as the corresponding `*_nums` list. -/
def getAnswerDict (m : Model) :
    Option ((List (Int × List Char)) × (List (Int × List Char))) := do
  let dA ← buildAnswerSide (acrossStarts m) (acrossWords m)
  let dD ← buildAnswerSide (downStarts m) (downWords m)
  if dA.length = (numberingSt m).acrossNums.length ∧
      dD.length = (numberingSt m).downNums.length then
    pure (dA, dD)
  else none

/-- `get_location_dict`: scan the numbering, record `(i, j)` for every
positive entry. -/
def getLocationDict (m : Model) : List (Int × (Nat × Nat)) :=
  (List.range m.R).foldl (fun d i =>
    (List.range m.C).foldl (fun d j =>
      if finalNum m i j > 0 then dictSet d (finalNum m i j) (i, j) else d) d) []

/-- `sorted(clue_dict[dir].keys())`, modelled by insertion sort (any
correct sort of the integer keys computes Python's `sorted`). -/
def sortKeys (d : List (Int × String)) : List Int :=
  (d.map Prod.fst).insertionSort (· ≤ ·)

/-- Rebus expansion of one answer string, as in `get_answer_clue_dict`:
if any rebus symbol occurs in the answer, replace every symbol by its
mapped string. -/
def expandAnswer (rebus : List (Char × List Char)) (ans : List Char) :
    List Char :=
  if rebus.any (fun p => decide (p.1 ∈ ans)) then
    (ans.map (fun ch =>
      match rebus.find? (fun p => decide (p.1 = ch)) with
      | some p => p.2
      | none => [ch])).flatten
  else ans

/-- The `ValueError` message raised on a duplicate answer. -/
def dupMsg (ans : List Char) : String :=
  String.mk ans ++
    " already in answer-clue dictionary\n\nCrosswords with repeat answers are not currently supported."

/-- One iteration of `get_answer_clue_dict`: look up the answer for clue
number `k` (`KeyError` when the clue table has a number the grid did not
derive), expand it, pair it with the clue text, and fail on a duplicate.
`k` is drawn from the keys of `cd`, so the clue lookup always succeeds
and its `getD` default is never used. -/
def acdInsert (rebus : List (Char × List Char)) (cd : List (Int × String))
    (ad : List (Int × List Char)) (acc : List (List Char × String))
    (k : Int) : Except String (List (List Char × String)) :=
  match dictLookup ad k with
  | none => Except.error "KeyError"
  | some ans0 =>
    let ans := expandAnswer rebus ans0
    let clue := (dictLookup cd k).getD ""
    if ans ∈ acc.map Prod.fst then Except.error (dupMsg ans)
    else Except.ok (acc ++ [(ans, clue)])

/-- `get_answer_clue_dict`: across keys in ascending order, then down
keys in ascending order. -/
def getAnswerClueDict (cdA cdD : List (Int × String))
    (adA adD : List (Int × List Char)) (rebus : List (Char × List Char)) :
    Except String (List (List Char × String)) := do
  let d1 ← (sortKeys cdA).foldlM (acdInsert rebus cdA adA) []
  (sortKeys cdD).foldlM (acdInsert rebus cdD adD) d1

/-! ## Characterization of the answer-clue construction -/

/-- The expanded answers one direction contributes, in insertion order. -/
def SpecAcdAnswers (cd : List (Int × String)) (ad : List (Int × List Char))
    (rebus : List (Char × List Char)) : List (List Char) :=
  (sortKeys cd).map (fun k => expandAnswer rebus ((dictLookup ad k).getD []))

/-- The (expanded answer, clue) pairs one direction contributes, in
insertion order. -/
def SpecAcdPairs (cd : List (Int × String)) (ad : List (Int × List Char))
    (rebus : List (Char × List Char)) : List (List Char × String) :=
  (sortKeys cd).map (fun k =>
    (expandAnswer rebus ((dictLookup ad k).getD []), (dictLookup cd k).getD ""))

/-- First element of `l` that repeats an earlier element (earlier in `l`
or in `seen`). -/
def firstDupFrom (seen : List (List Char)) : List (List Char) → Option (List Char)
  | [] => none
  | a :: rest => if a ∈ seen then some a else firstDupFrom (seen ++ [a]) rest

theorem firstDupFrom_cons (s : List (List Char)) (a : List Char)
    (rest : List (List Char)) :
    firstDupFrom s (a :: rest) =
      if a ∈ s then some a else firstDupFrom (s ++ [a]) rest := rfl

theorem firstDupFrom_append (s xs ys : List (List Char)) :
    firstDupFrom s (xs ++ ys) =
      match firstDupFrom s xs with
      | some a => some a
      | none => firstDupFrom (s ++ xs) ys := by
  induction xs generalizing s with
  | nil => simp [firstDupFrom]
  | cons a xs ih =>
    rw [List.cons_append, firstDupFrom_cons, firstDupFrom_cons]
    by_cases ha : a ∈ s
    · rw [if_pos ha, if_pos ha]
    · rw [if_neg ha, if_neg ha, ih]
      rw [show s ++ [a] ++ xs = s ++ a :: xs by simp]

theorem acd_fold_spec (rebus : List (Char × List Char))
    (cd : List (Int × String)) (ad : List (Int × List Char)) :
    ∀ (ks : List Int) (acc : List (List Char × String)),
      (∀ k ∈ ks, (dictLookup ad k).isSome) →
      ks.foldlM (acdInsert rebus cd ad) acc =
        match firstDupFrom (acc.map Prod.fst)
            (ks.map (fun k => expandAnswer rebus ((dictLookup ad k).getD []))) with
        | some a => Except.error (dupMsg a)
        | none => Except.ok (acc ++ ks.map (fun k =>
            (expandAnswer rebus ((dictLookup ad k).getD []),
             (dictLookup cd k).getD ""))) := by
  intro ks
  induction ks with
  | nil =>
    intro acc _
    show pure acc = _
    simp only [List.map_nil, firstDupFrom, List.append_nil]
    rfl
  | cons k ks ih =>
    intro acc hk
    obtain ⟨a0, ha0⟩ := Option.isSome_iff_exists.mp
      (hk k (List.mem_cons_self k ks))
    rw [List.foldlM_cons, List.map_cons, List.map_cons]
    have hstep : acdInsert rebus cd ad acc k =
        if expandAnswer rebus a0 ∈ acc.map Prod.fst then
          Except.error (dupMsg (expandAnswer rebus a0))
        else Except.ok (acc ++ [(expandAnswer rebus a0, (dictLookup cd k).getD "")]) := by
      unfold acdInsert
      rw [ha0]
    have hgetD : (dictLookup ad k).getD [] = a0 := by rw [ha0]; rfl
    rw [hstep, hgetD, firstDupFrom_cons]
    by_cases hdup : expandAnswer rebus a0 ∈ acc.map Prod.fst
    · rw [if_pos hdup, if_pos hdup]
      rfl
    · rw [if_neg hdup, if_neg hdup]
      show ks.foldlM (acdInsert rebus cd ad)
          (acc ++ [(expandAnswer rebus a0, (dictLookup cd k).getD "")]) = _
      rw [ih _ (fun x hx => hk x (List.mem_cons_of_mem k hx))]
      have hseen : (acc ++ [(expandAnswer rebus a0,
          (dictLookup cd k).getD "")]).map Prod.fst =
          acc.map Prod.fst ++ [expandAnswer rebus a0] := by
        simp
      rw [hseen]
      cases firstDupFrom (acc.map Prod.fst ++ [expandAnswer rebus a0])
          (ks.map (fun k => expandAnswer rebus ((dictLookup ad k).getD []))) with
      | none => rw [List.append_assoc]; rfl
      | some a => rfl

/-- Full characterization of `get_answer_clue_dict`: across pairs first
(ascending clue number), then down pairs (ascending clue number); the
first expanded answer equal to an earlier one aborts the construction
with the duplicate-answer `ValueError` naming that answer. -/
theorem acd_spec (cdA cdD : List (Int × String))
    (adA adD : List (Int × List Char)) (rebus : List (Char × List Char))
    (hA : ∀ k ∈ sortKeys cdA, (dictLookup adA k).isSome)
    (hD : ∀ k ∈ sortKeys cdD, (dictLookup adD k).isSome) :
    getAnswerClueDict cdA cdD adA adD rebus =
      match firstDupFrom []
          (SpecAcdAnswers cdA adA rebus ++ SpecAcdAnswers cdD adD rebus) with
      | some a => Except.error (dupMsg a)
      | none => Except.ok (SpecAcdPairs cdA adA rebus ++ SpecAcdPairs cdD adD rebus) := by
  unfold getAnswerClueDict
  rw [firstDupFrom_append]
  show ((sortKeys cdA).foldlM (acdInsert rebus cdA adA) [] >>= fun d1 =>
    (sortKeys cdD).foldlM (acdInsert rebus cdD adD) d1) = _
  rw [acd_fold_spec rebus cdA adA (sortKeys cdA) [] hA]
  unfold SpecAcdAnswers SpecAcdPairs
  simp only [List.map_nil, List.nil_append]
  cases hfd : firstDupFrom []
      ((sortKeys cdA).map (fun k => expandAnswer rebus ((dictLookup adA k).getD []))) with
  | some a => rfl
  | none =>
    show ((sortKeys cdD).foldlM (acdInsert rebus cdD adD) _) = _
    rw [acd_fold_spec rebus cdD adD (sortKeys cdD) _ hD]
    have hmapfst : ((sortKeys cdA).map (fun k =>
        (expandAnswer rebus ((dictLookup adA k).getD []),
         (dictLookup cdA k).getD ""))).map Prod.fst =
        (sortKeys cdA).map (fun k => expandAnswer rebus ((dictLookup adA k).getD [])) := by
      rw [List.map_map]
      rfl
    rw [hmapfst]

/-! ## The document encoder (`Jpz`) -/

/-- `self.lb`: newline in pretty mode, empty in compact mode. -/
def lbOf (pretty : Bool) : String := if pretty then "\n" else ""

/-- `self.tab`. -/
def tabOf (pretty : Bool) : String := if pretty then "\t" else ""

/-- One cell element of `encode_grid` for cell `(i, j)` (the source
appends exactly one string per cell).  The solution character is the
rebus lookup when the grid character is a rebus key (that lookup always
succeeds, so the `getD` default is unreachable), else the character
itself. -/
def cellString (m : Model) (pretty : Bool) (i j : Nat) : String :=
  let lb := lbOf pretty
  let k := finalNum m i j
  let ind : Int := (j : Int) + (m.C : Int) * (i : Int)
  if k = -1 then
    "<cell x=\"" ++ toString (j + 1) ++ "\" y=\"" ++ toString (i + 1) ++
      "\" type=\"block\" />" ++ lb
  else
    let char : String :=
      if m.g i j ∈ m.rebus.map Prod.fst then
        String.mk ((dictLookup m.rebus (m.g i j)).getD [])
      else String.mk [m.g i j]
    if k = 0 then
      if ind ∈ m.circles then
        "<cell x=\"" ++ toString (j + 1) ++ "\" y=\"" ++ toString (i + 1) ++
          "\" solution=\"" ++ char ++ "\" background-shape=\"circle\" />" ++ lb
      else
        "<cell x=\"" ++ toString (j + 1) ++ "\" y=\"" ++ toString (i + 1) ++
          "\" solution=\"" ++ char ++ "\" />" ++ lb
    else
      if ind ∈ m.circles then
        "<cell x=\"" ++ toString (j + 1) ++ "\" y=\"" ++ toString (i + 1) ++
          "\" solution=\"" ++ char ++ "\" number=\"" ++ toString k ++
          "\" background-shape=\"circle\" />" ++ lb
      else
        "<cell x=\"" ++ toString (j + 1) ++ "\" y=\"" ++ toString (i + 1) ++
          "\" solution=\"" ++ char ++ "\" number=\"" ++ toString k ++ "\" />" ++ lb

/-- `encode_grid`: header, one cell element per position in row-major
order, then the grid-look element. -/
def encodeGrid (m : Model) (pretty : Bool) : List String :=
  let lb := lbOf pretty
  ["<grid height=\"" ++ toString m.R ++ "\" width=\"" ++ toString m.C ++
    "\">" ++ lb ++ lb]
  ++ ((List.range m.R).flatMap (fun i =>
      (List.range m.C).map (fun j => cellString m pretty i j)))
  ++ [lb ++ "<grid-look cell-size-in-pixels=\"26\" clue-square-divider-width=\"0.7\" italian-style=\"false\" numbering-scheme=\"normal\" thick-border=\"true\" />" ++
      lb ++ lb ++ "</grid>" ++ lb ++ lb]

/-- `np.max(self._xw._numbering)`: every numbering entry is at least
`-1`, so folding `max` from `-1` equals the numpy maximum for the
nonempty grids the source handles. -/
def maxNumbering (m : Model) : Int :=
  ((List.range m.R).flatMap (fun i =>
    (List.range m.C).map (fun j => finalNum m i j))).foldl max (-1)

/-- Python `range(1, n + 1)` as a list of integers. -/
def intRange1To (n : Int) : List Int :=
  (List.range n.toNat).map (fun (k : Nat) => (k : Int) + 1)

/-- `self._cat_across_starts`: the across start numbers, concatenated
over rows and sorted (insertion sort modelling Python's `sorted`). -/
def catAcrossStarts (m : Model) : List Int :=
  ((acrossStarts m).flatten).insertionSort (· ≤ ·)

/-- `self._cat_down_starts`. -/
def catDownStarts (m : Model) : List Int :=
  ((downStarts m).flatten).insertionSort (· ≤ ·)

/-- `encode_locations`: for each number `a` from 1 to the numbering
maximum, an across word block when `a` is an across start and a down
word block when it is a down start.  The answer-dictionary and
location-dictionary lookups raise `KeyError` in Python when missing;
`none` models that.  The location lookup sits inside the per-cell loop,
so an empty answer never performs it. -/
def locWordAcross (m : Model) (adA : List (Int × List Char))
    (pretty : Bool) (acc : List String) (a : Int) : Option (List String) :=
  if a ∈ catAcrossStarts m then
    (dictLookup adA a).bind (fun ans =>
      ((List.range ans.length).mapM (fun i =>
        (dictLookup (getLocationDict m) a).map (fun loc =>
          tabOf pretty ++ "<cells x=\"" ++ toString (loc.2 + 1 + i) ++
            "\" y=\"" ++ toString (loc.1 + 1) ++ "\" />" ++
            lbOf pretty))).map (fun cells =>
        acc ++ ["<word id=\"" ++ toString a ++ "0000\">" ++ lbOf pretty] ++
          cells ++ ["</word>" ++ lbOf pretty]))
  else some acc

/-- The down half of one `encode_locations` iteration. -/
def locWordDown (m : Model) (adD : List (Int × List Char))
    (pretty : Bool) (acc : List String) (a : Int) : Option (List String) :=
  if a ∈ catDownStarts m then
    (dictLookup adD a).bind (fun ans =>
      ((List.range ans.length).mapM (fun i =>
        (dictLookup (getLocationDict m) a).map (fun loc =>
          tabOf pretty ++ "<cells x=\"" ++ toString (loc.2 + 1) ++
            "\" y=\"" ++ toString (loc.1 + 1 + i) ++ "\" />" ++
            lbOf pretty))).map (fun cells =>
        acc ++ ["<word id=\"" ++ toString a ++ "0001\">" ++ lbOf pretty] ++
          cells ++ ["</word>" ++ lbOf pretty]))
  else some acc

/-- One iteration of the `encode_locations` loop: the across half, then
the down half on the extended accumulator. -/
def locStep (m : Model) (adA adD : List (Int × List Char)) (pretty : Bool)
    (acc : List String) (a : Int) : Option (List String) :=
  (locWordAcross m adA pretty acc a).bind
    (fun acc1 => locWordDown m adD pretty acc1 a)

def encodeLocations (m : Model) (adA adD : List (Int × List Char))
    (pretty : Bool) : Option (List String) :=
  (intRange1To (maxNumbering m)).foldlM (locStep m adA adD pretty) []

/-- `encode_clues`: the across clue block (iterating the across clue
dict in its stored order), then the down clue block. -/
def encodeClues (m : Model) (pretty : Bool) : List String :=
  let lb := lbOf pretty
  let tab := tabOf pretty
  [lb ++ lb ++ "<clues ordering=\"\"><title>Across</title>" ++ lb ++ lb]
  ++ m.cdA.flatMap (fun p =>
      ["<clue number=\"" ++ toString p.1 ++ "\" word=\"" ++ toString p.1 ++
        "0000\">" ++ lb,
       tab ++ "<span>" ++ p.2 ++ "</span>" ++ lb ++ "</clue>" ++ lb])
  ++ [lb ++ "</clues>" ++ lb ++ lb ++
      "<clues ordering=\"\"><title>Down</title>" ++ lb ++ lb]
  ++ m.cdD.flatMap (fun p =>
      ["<clue number=\"" ++ toString p.1 ++ "\" word=\"" ++ toString p.1 ++
        "0001\">" ++ lb,
       tab ++ "<span>" ++ p.2 ++ "</span>" ++ lb ++ "</clue>" ++ lb])
  ++ [lb ++ "</clues>" ++ lb ++ lb]

/-! ## Dictionary lemmas -/

theorem find?_mapreplace {α β : Type _} [DecidableEq α]
    (d : List (α × β)) (k k' : α) (v : β) (h : k' ≠ k) :
    (d.map (fun p => if p.1 = k then (k, v) else p)).find?
        (fun p => decide (p.1 = k')) =
      d.find? (fun p => decide (p.1 = k')) := by
  induction d with
  | nil => rfl
  | cons a d ih =>
    rw [List.map_cons]
    by_cases ha : a.1 = k
    · rw [if_pos ha]
      rw [List.find?_cons_of_neg _ (by simpa using Ne.symm h),
        List.find?_cons_of_neg _ (by
          simp only [decide_eq_true_eq]
          rw [ha]
          exact Ne.symm h), ih]
    · rw [if_neg ha]
      by_cases ha' : a.1 = k'
      · rw [List.find?_cons_of_pos _ (by simpa using ha'),
          List.find?_cons_of_pos _ (by simpa using ha')]
      · rw [List.find?_cons_of_neg _ (by simpa using ha'),
          List.find?_cons_of_neg _ (by simpa using ha'), ih]

theorem find?_append_one {α β : Type _} [DecidableEq α]
    (d : List (α × β)) (k k' : α) (v : β) (h : k' ≠ k) :
    ((d ++ [(k, v)]).find? (fun p => decide (p.1 = k'))) =
      d.find? (fun p => decide (p.1 = k')) := by
  induction d with
  | nil =>
    rw [List.nil_append, List.find?_cons_of_neg _ (by simpa using Ne.symm h)]
  | cons a d ih =>
    rw [List.cons_append]
    by_cases ha' : a.1 = k'
    · rw [List.find?_cons_of_pos _ (by simpa using ha'),
        List.find?_cons_of_pos _ (by simpa using ha')]
    · rw [List.find?_cons_of_neg _ (by simpa using ha'),
        List.find?_cons_of_neg _ (by simpa using ha'), ih]

theorem find?_mapreplace_self {α β : Type _} [DecidableEq α]
    (d : List (α × β)) (k : α) (v : β) (hm : k ∈ d.map Prod.fst) :
    (d.map (fun p => if p.1 = k then (k, v) else p)).find?
      (fun p => decide (p.1 = k)) = some (k, v) := by
  induction d with
  | nil => simp at hm
  | cons a d ih =>
    rw [List.map_cons]
    by_cases ha : a.1 = k
    · rw [if_pos ha, List.find?_cons_of_pos _ (by simp)]
    · rw [if_neg ha, List.find?_cons_of_neg _ (by simpa using ha)]
      apply ih
      rw [List.map_cons] at hm
      rcases List.mem_cons.mp hm with hc | hc
      · exact absurd hc.symm ha
      · exact hc

theorem find?_append_self {α β : Type _} [DecidableEq α]
    (d : List (α × β)) (k : α) (v : β) (hm : k ∉ d.map Prod.fst) :
    ((d ++ [(k, v)]).find? (fun p => decide (p.1 = k))) = some (k, v) := by
  induction d with
  | nil => rw [List.nil_append, List.find?_cons_of_pos _ (by simp)]
  | cons a d ih =>
    have ha : ¬ a.1 = k := by
      intro hc
      exact hm (by rw [List.map_cons]; exact List.mem_cons.mpr (Or.inl hc.symm))
    rw [List.cons_append, List.find?_cons_of_neg _ (by simpa using ha)]
    apply ih
    intro hc
    exact hm (by rw [List.map_cons]; exact List.mem_cons.mpr (Or.inr hc))

theorem dictLookup_set_other {α β : Type _} [DecidableEq α]
    (d : List (α × β)) (k k' : α) (v : β) (h : k' ≠ k) :
    dictLookup (dictSet d k v) k' = dictLookup d k' := by
  unfold dictSet dictLookup
  by_cases hm : k ∈ d.map Prod.fst
  · rw [if_pos hm, find?_mapreplace d k k' v h]
  · rw [if_neg hm, find?_append_one d k k' v h]

theorem dictLookup_set_self {α β : Type _} [DecidableEq α]
    (d : List (α × β)) (k : α) (v : β) :
    dictLookup (dictSet d k v) k = some v := by
  unfold dictSet dictLookup
  by_cases hm : k ∈ d.map Prod.fst
  · rw [if_pos hm, find?_mapreplace_self d k v hm]
    rfl
  · rw [if_neg hm, find?_append_self d k v hm]
    rfl

theorem dictLookup_mem {α β : Type _} [DecidableEq α]
    {d : List (α × β)} {k : α} {v : β}
    (h : dictLookup d k = some v) : (k, v) ∈ d := by
  unfold dictLookup at h
  rcases hf : d.find? (fun p => decide (p.1 = k)) with _ | p
  · rw [hf] at h
    exact absurd h (by simp)
  · rw [hf] at h
    have hp := List.find?_some hf
    have hmem := List.mem_of_find?_eq_some hf
    rcases p with ⟨pk, pv⟩
    simp only [decide_eq_true_eq] at hp
    simp only [Option.map_some'] at h
    cases h
    subst hp
    exact hmem

/-! ## The location dictionary records each positive number at its cell -/

/-- Invariant for the `get_location_dict` scan up to linear position
`t`. -/
def LocInv (m : Model) (t : Nat) (d : List (Int × (Nat × Nat))) : Prop :=
  (∀ a b, a < m.R → b < m.C → a * m.C + b < t → 0 < finalNum m a b →
    dictLookup d (finalNum m a b) = some (a, b)) ∧
  (∀ n p, dictLookup d n = some p →
    ∃ a b, p = (a, b) ∧ a < m.R ∧ b < m.C ∧ a * m.C + b < t ∧
      finalNum m a b = n ∧ 0 < n)

theorem locInv_step (m : Model) {i j : Nat} {d : List (Int × (Nat × Nat))}
    (hiR : i < m.R) (hj : j < m.C) (hI : LocInv m (i * m.C + j) d) :
    LocInv m (i * m.C + j + 1)
      (if finalNum m i j > 0 then dictSet d (finalNum m i j) (i, j) else d) := by
  obtain ⟨F, B⟩ := hI
  by_cases hv : finalNum m i j > 0
  · rw [if_pos hv]
    constructor
    · intro a b haR hbC hlt hpos
      rcases Nat.lt_succ_iff_lt_or_eq.mp hlt with h | h
      · have hne : finalNum m a b ≠ finalNum m i j := by
          intro hc
          obtain ⟨rfl, rfl⟩ := finalNum_inj m haR hbC hiR hj hpos hc
          exact Nat.lt_irrefl _ h
        rw [dictLookup_set_other d _ _ _ hne]
        exact F a b haR hbC h hpos
      · obtain ⟨rfl, rfl⟩ := pos_inj hbC hj h
        exact dictLookup_set_self d _ _
    · intro n p hp
      by_cases hn : n = finalNum m i j
      · subst hn
        rw [dictLookup_set_self d _ _] at hp
        cases hp
        exact ⟨i, j, rfl, hiR, hj, by omega, rfl, hv⟩
      · rw [dictLookup_set_other d _ _ _ hn] at hp
        obtain ⟨a, b, hpe, haR, hbC, hlt, hfn, hnp⟩ := B n p hp
        exact ⟨a, b, hpe, haR, hbC, by omega, hfn, hnp⟩
  · rw [if_neg hv]
    constructor
    · intro a b haR hbC hlt hpos
      rcases Nat.lt_succ_iff_lt_or_eq.mp hlt with h | h
      · exact F a b haR hbC h hpos
      · obtain ⟨rfl, rfl⟩ := pos_inj hbC hj h
        exact absurd hpos hv
    · intro n p hp
      obtain ⟨a, b, hpe, haR, hbC, hlt, hfn, hnp⟩ := B n p hp
      exact ⟨a, b, hpe, haR, hbC, by omega, hfn, hnp⟩

theorem getLocationDict_inv (m : Model) :
    LocInv m (m.R * m.C) (getLocationDict m) := by
  unfold getLocationDict
  have main : ∀ r, r ≤ m.R → LocInv m (r * m.C)
      ((List.range r).foldl (fun d i =>
        (List.range m.C).foldl (fun d j =>
          if finalNum m i j > 0 then dictSet d (finalNum m i j) (i, j) else d) d) []) := by
    intro r
    induction r with
    | zero =>
      intro _
      constructor
      · intro a b _ _ hlt
        rw [Nat.zero_mul] at hlt
        omega
      · intro n p hp
        simp [dictLookup] at hp
    | succ r ih =>
      intro hr
      rw [List.range_succ, List.foldl_append, List.foldl_cons, List.foldl_nil]
      have hI := ih (by omega)
      have hroll : ∀ d, LocInv m (r * m.C + m.C) d → LocInv m ((r + 1) * m.C) d := by
        intro d hd
        rw [Nat.succ_mul]
        exact hd
      apply hroll
      exact foldl_range_inv m.C _ _ (fun j d => LocInv m (r * m.C + j) d)
        (by simpa using hI)
        (fun k d hk hd => locInv_step m (by omega) hk hd)
  exact main m.R (Nat.le_refl _)

theorem getLocationDict_anchor (m : Model) {i j : Nat}
    (hiR : i < m.R) (hj : j < m.C) (hpos : 0 < finalNum m i j) :
    dictLookup (getLocationDict m) (finalNum m i j) = some (i, j) := by
  have h := (getLocationDict_inv m).1 i j hiR hj ?_ hpos
  · exact h
  · have h1 : i * m.C + j < (i + 1) * m.C := by rw [Nat.succ_mul]; omega
    have h2 : (i + 1) * m.C ≤ m.R * m.C := Nat.mul_le_mul_right m.C (by omega)
    omega

/-! ## Where answer-dictionary entries come from -/

theorem answer_inner_extract (words : List (List (List Char))) (I : Nat) :
    ∀ (pairs : List (Nat × Int)) (d0 d' : List (Int × List Char)),
      pairs.foldlM (fun d jn => do
        let wrow ← words.get? I
        let w ← wrow.get? jn.1
        pure (dictSet d jn.2 w)) d0 = some d' →
      ∀ n w, dictLookup d' n = some w →
        dictLookup d0 n = some w ∨
        ∃ j wrow, (j, n) ∈ pairs ∧ words.get? I = some wrow ∧
          wrow.get? j = some w := by
  intro pairs
  induction pairs with
  | nil =>
    intro d0 d' hfold n w hl
    rw [List.foldlM_nil] at hfold
    cases hfold
    exact Or.inl hl
  | cons jn pairs ih =>
    intro d0 d' hfold n w hl
    rw [List.foldlM_cons] at hfold
    rcases hstep : (do
        let wrow ← words.get? I
        let w ← wrow.get? jn.1
        pure (dictSet d0 jn.2 w) : Option (List (Int × List Char))) with _ | d1
    · rw [hstep] at hfold
      simp at hfold
    · rw [hstep] at hfold
      rcases hw1 : words.get? I with _ | wrow
      · rw [hw1] at hstep
        simp at hstep
      · rw [hw1] at hstep
        have hstep2 : (do
            let w ← wrow.get? jn.1
            pure (dictSet d0 jn.2 w) : Option (List (Int × List Char))) =
          some d1 := hstep
        rcases hw2 : wrow.get? jn.1 with _ | w0
        · rw [hw2] at hstep2
          simp at hstep2
        · rw [hw2] at hstep2
          have hstep3 : dictSet d0 jn.2 w0 = d1 := Option.some.inj hstep2
          rw [← hstep3] at hfold
          rcases ih (dictSet d0 jn.2 w0) d' hfold n w hl with
            hc | ⟨j, wr, hm, hwr, hwj⟩
          · by_cases hn : n = jn.2
            · subst hn
              rw [dictLookup_set_self] at hc
              cases hc
              exact Or.inr ⟨jn.1, wrow, List.mem_cons_self jn pairs, rfl, hw2⟩
            · rw [dictLookup_set_other d0 _ _ _ hn] at hc
              exact Or.inl hc
          · exact Or.inr ⟨j, wr, List.mem_cons_of_mem jn hm,
              hw1.symm.trans hwr, hwj⟩

theorem answer_outer_extract (words : List (List (List Char))) :
    ∀ (rows : List (Nat × List Int)) (d0 d' : List (Int × List Char)),
      rows.foldlM (fun d iRow =>
        iRow.2.enum.foldlM (fun d jn => do
          let wrow ← words.get? iRow.1
          let w ← wrow.get? jn.1
          pure (dictSet d jn.2 w)) d) d0 = some d' →
      ∀ n w, dictLookup d' n = some w →
        dictLookup d0 n = some w ∨
        ∃ I srow j wrow, (I, srow) ∈ rows ∧ (j, n) ∈ srow.enum ∧
          words.get? I = some wrow ∧ wrow.get? j = some w := by
  intro rows
  induction rows with
  | nil =>
    intro d0 d' hfold n w hl
    rw [List.foldlM_nil] at hfold
    cases hfold
    exact Or.inl hl
  | cons iRow rows ih =>
    intro d0 d' hfold n w hl
    rw [List.foldlM_cons] at hfold
    rcases hstep : iRow.2.enum.foldlM (fun d jn => do
        let wrow ← words.get? iRow.1
        let w ← wrow.get? jn.1
        pure (dictSet d jn.2 w)) d0 with _ | d1
    · rw [hstep] at hfold
      simp at hfold
    · rw [hstep] at hfold
      rcases ih d1 d' hfold n w hl with hc | ⟨I, srow, j, wr, hm, hjm, hwr, hwj⟩
      · rcases answer_inner_extract words iRow.1 iRow.2.enum d0 d1 hstep n w hc with
          hc2 | ⟨j, wr, hm, hwr, hwj⟩
        · exact Or.inl hc2
        · exact Or.inr ⟨iRow.1, iRow.2, j, wr,
            by rw [← Prod.mk.eta (p := iRow)]; exact List.mem_cons_self _ rows,
            hm, hwr, hwj⟩
      · exact Or.inr ⟨I, srow, j, wr, List.mem_cons_of_mem iRow hm, hjm, hwr, hwj⟩

/-- Every entry of a built answer dictionary comes from a start-number
list position and its matching fragment. -/
theorem buildAnswerSide_extract (starts : List (List Int))
    (words : List (List (List Char))) (d : List (Int × List Char))
    (hb : buildAnswerSide starts words = some d)
    (n : Int) (w : List Char) (hl : dictLookup d n = some w) :
    ∃ I srow j wrow, starts.get? I = some srow ∧ srow.get? j = some n ∧
      words.get? I = some wrow ∧ wrow.get? j = some w := by
  unfold buildAnswerSide at hb
  rcases answer_outer_extract words starts.enum [] d hb n w hl with hc | h
  · exact absurd hc (by simp [dictLookup])
  · obtain ⟨I, srow, j, wrow, hm, hjm, hwr, hwj⟩ := h
    refine ⟨I, srow, j, wrow, ?_, ?_, hwr, hwj⟩
    · have := List.mem_enum_iff_getElem?.mp hm
      simpa [List.get?_eq_getElem?] using this
    · have := List.mem_enum_iff_getElem?.mp hjm
      simpa [List.get?_eq_getElem?] using this

/-! ## Lengths of expanded answers -/

/-- Letters written into one grid cell by the expansion: the expansion
length for a rebus symbol, 1 for a plain letter. -/
def SpecCellContribution (rebus : List (Char × List Char)) (c : Char) : Nat :=
  match rebus.find? (fun p => decide (p.1 = c)) with
  | some p => p.2.length
  | none => 1

theorem sum_ones {α : Type _} (w : List α) (f : α → Nat)
    (hf : ∀ c ∈ w, f c = 1) : (w.map f).sum = w.length := by
  induction w with
  | nil => rfl
  | cons c w ih =>
    rw [List.map_cons, List.sum_cons, List.length_cons,
      hf c (List.mem_cons_self c w),
      ih (fun x hx => hf x (List.mem_cons_of_mem c hx))]
    omega

theorem expandAnswer_length (rebus : List (Char × List Char))
    (w : List Char) :
    (expandAnswer rebus w).length = (w.map (SpecCellContribution rebus)).sum := by
  unfold expandAnswer
  by_cases h : rebus.any (fun p => decide (p.1 ∈ w))
  · rw [if_pos h, List.length_flatten, List.map_map]
    congr 1
    apply List.map_congr_left
    intro c _
    simp only [Function.comp_apply]
    unfold SpecCellContribution
    rcases hf : rebus.find? (fun p => decide (p.1 = c)) with _ | p
    · rw [hf]
      rfl
    · rw [hf]
  · rw [if_neg h]
    have hnone : ∀ c ∈ w, SpecCellContribution rebus c = 1 := by
      intro c hc
      unfold SpecCellContribution
      rcases hf : rebus.find? (fun p => decide (p.1 = c)) with _ | p
      · rw [hf]
      · exfalso
        have hp := List.find?_some hf
        have hmem := List.mem_of_find?_eq_some hf
        simp only [decide_eq_true_eq] at hp
        exact h (List.any_eq_true.mpr ⟨p, hmem, by simp [hp, hc]⟩)
    exact (sum_ones w _ hnone).symm

/-! ## Reading the start and word tables by position -/

theorem get?_map_range {α : Type _} (f : Nat → α) {n i : Nat} (h : i < n) :
    ((List.range n).map f).get? i = some (f i) := by
  rw [List.get?_eq_getElem?, List.getElem?_map, List.getElem?_range h]
  rfl

theorem get?_map_range_inv {α : Type _} {f : Nat → α} {n i : Nat} {x : α}
    (h : ((List.range n).map f).get? i = some x) : i < n ∧ x = f i := by
  have hlen : i < n := by
    by_contra hc
    rw [List.get?_eq_getElem?, List.getElem?_map,
      List.getElem?_eq_none (by simpa using Nat.le_of_not_lt hc)] at h
    simp at h
  rw [get?_map_range f hlen] at h
  cases h
  exact ⟨hlen, rfl⟩

theorem mem_SpecAcrossHeads {m : Model} {i p : Nat}
    (h : p ∈ SpecAcrossHeads m i) : SpecAcrossStart m i p := by
  have := List.mem_filter.mp h
  simpa using this.2

theorem mem_SpecDownHeads {m : Model} {j p : Nat}
    (h : p ∈ SpecDownHeads m j) : SpecDownStart m p j := by
  have := List.mem_filter.mp h
  simpa using this.2

theorem get?_mem {α : Type _} {l : List α} {i : Nat} {x : α}
    (h : l.get? i = some x) : x ∈ l :=
  List.get?_mem h

/-- Unpacking a successful `get_answer_dict`. -/
theorem getAnswerDict_parts (m : Model)
    {dA dD : List (Int × List Char)}
    (h : getAnswerDict m = some (dA, dD)) :
    buildAnswerSide (acrossStarts m) (acrossWords m) = some dA ∧
    buildAnswerSide (downStarts m) (downWords m) = some dD := by
  unfold getAnswerDict at h
  rcases hA : buildAnswerSide (acrossStarts m) (acrossWords m) with _ | dA'
  · rw [hA] at h
    simp at h
  · rw [hA] at h
    rcases hD : buildAnswerSide (downStarts m) (downWords m) with _ | dD'
    · rw [hD] at h
      simp at h
    · rw [hD] at h
      have h2 : (if dA'.length = (numberingSt m).acrossNums.length ∧
          dD'.length = (numberingSt m).downNums.length then
          some (dA', dD') else none) = some (dA, dD) := h
      by_cases hc : dA'.length = (numberingSt m).acrossNums.length ∧
          dD'.length = (numberingSt m).downNums.length
      · rw [if_pos hc] at h2
        have h3 := Option.some.inj h2
        cases h3
        exact ⟨rfl, rfl⟩
      · rw [if_neg hc] at h2
        exact absurd h2 (by simp)

/-- One across entry of the answer dictionary: its number is the derived
number at an across-run head, and its answer string is exactly the run
at that head. -/
theorem answerDict_across_entry (m : Model)
    {dA dD : List (Int × List Char)} (hAD : getAnswerDict m = some (dA, dD))
    {n : Int} {w : List Char} (hl : dictLookup dA n = some w) :
    ∃ i p, i < m.R ∧ SpecAcrossStart m i p ∧ n = finalNum m i p ∧
      w = runFrom (rowChars m i) p := by
  obtain ⟨hA, _⟩ := getAnswerDict_parts m hAD
  obtain ⟨I, srow, j, wrow, hs, hsj, hw, hwj⟩ :=
    buildAnswerSide_extract _ _ dA hA n w hl
  obtain ⟨hIR, rfl⟩ := get?_map_range_inv hs
  obtain ⟨hIR2, rfl⟩ := get?_map_range_inv hw
  rw [acrossStartsRow_eq m hIR, List.get?_map] at hsj
  rcases hp : (SpecAcrossHeads m I).get? j with _ | p
  · rw [hp] at hsj
    simp at hsj
  · rw [hp] at hsj
    have hstart : SpecAcrossStart m I p := mem_SpecAcrossHeads (get?_mem hp)
    rw [acrossWords_row m hIR, List.get?_map, hp] at hwj
    refine ⟨I, p, hIR, hstart, ?_, ?_⟩
    · simpa using hsj.symm
    · simpa using hwj.symm

/-- One down entry of the answer dictionary. -/
theorem answerDict_down_entry (m : Model)
    {dA dD : List (Int × List Char)} (hAD : getAnswerDict m = some (dA, dD))
    {n : Int} {w : List Char} (hl : dictLookup dD n = some w) :
    ∃ p j, j < m.C ∧ SpecDownStart m p j ∧ n = finalNum m p j ∧
      w = runFrom (colChars m j) p := by
  obtain ⟨_, hD⟩ := getAnswerDict_parts m hAD
  obtain ⟨J, srow, j, wrow, hs, hsj, hw, hwj⟩ :=
    buildAnswerSide_extract _ _ dD hD n w hl
  obtain ⟨hJC, rfl⟩ := get?_map_range_inv hs
  obtain ⟨hJC2, rfl⟩ := get?_map_range_inv hw
  rw [downStartsCol_eq m hJC, List.get?_map] at hsj
  rcases hp : (SpecDownHeads m J).get? j with _ | p
  · rw [hp] at hsj
    simp at hsj
  · rw [hp] at hsj
    have hstart : SpecDownStart m p J := mem_SpecDownHeads (get?_mem hp)
    rw [downWords_col m hJC, List.get?_map, hp] at hwj
    refine ⟨p, J, hJC, hstart, ?_, ?_⟩
    · simpa using hsj.symm
    · simpa using hwj.symm

/-! ## Concrete puzzle models used as witnesses and counterexamples -/

/-- A grid function from a list of rows (out-of-range cells read as
blocks; the analysis never reads out of range). -/
def gridOf (rows : List (List Char)) : Nat → Nat → Char :=
  fun i j => (((rows.get? i).getD []).get? j).getD '.'

/-- The fully open 3×3 grid. -/
def mOpen3 : Model :=
  { R := 3, C := 3, g := gridOf [['A','A','A'],['A','A','A'],['A','A','A']],
    rebus := [], circles := [], cdA := [], cdD := [] }

/-- A 1×2 grid whose first cell holds the rebus symbol `@` standing for
`ROSE`, with the second cell circled. -/
def mRebus : Model :=
  { R := 1, C := 2, g := gridOf [['@','X']],
    rebus := [('@', ['R','O','S','E'])], circles := [1],
    cdA := [(1, "flower opening")], cdD := [] }

/-- A 1×1 grid with no clue text supplied for the derived number 1. -/
def mNoClue : Model :=
  { R := 1, C := 1, g := gridOf [['A']],
    rebus := [], circles := [], cdA := [], cdD := [] }

/-- A model whose across clue table was inserted out of numeric order
(clue 2 before clue 1), as a cfp file listing the WORD tags in that
order produces. -/
def mUnsorted : Model :=
  { R := 1, C := 1, g := gridOf [['A']],
    rebus := [], circles := [], cdA := [(2, "B"), (1, "A")], cdD := [(1, "C")] }

/-- A 1×2 open grid with clue text for all derived numbers. -/
def mTwo : Model :=
  { R := 1, C := 2, g := gridOf [['A','B']],
    rebus := [], circles := [], cdA := [(1, "hello")],
    cdD := [(1, "x"), (2, "y")] }

/-- A model with an empty across clue text for number 2. -/
def mEmptyClue : Model :=
  { R := 1, C := 1, g := gridOf [['A']],
    rebus := [], circles := [], cdA := [(2, "")], cdD := [(3, "")] }

/-! ## Claim C1 -/

/-- C1: the Numbering Grid assigns `-1` to exactly the blocked cells,
a positive number to exactly the cells that start an across run
(column 0 or blocked left neighbor) or a down run (row 0 or blocked
neighbor above), and the number at each anchor is `1 +` the count of
anchor cells strictly before it in row-major order — a single counter
starting at 1, incremented exactly once per anchor cell. -/
theorem claim1_numbering (m : Model) (i j : Nat)
    (hiR : i < m.R) (hj : j < m.C) :
    (finalNum m i j = -1 ↔ SpecBlocked m i j) ∧
    (0 < finalNum m i j ↔ SpecAnchor m i j) ∧
    (SpecAnchor m i j →
      finalNum m i j = ((1 + anchorsBefore m i j : Nat) : Int)) :=
  ⟨finalNum_blocked_iff m hiR hj, finalNum_pos_iff m hiR hj,
   finalNum_anchor m hiR hj⟩

theorem claim1_numbering_witness :
    2 < mOpen3.R ∧ 0 < mOpen3.C ∧ finalNum mOpen3 2 0 = 5 := by
  refine ⟨by decide, by decide, ?_⟩
  have h := claim1_numbering mOpen3 2 0 (by decide) (by decide)
  rw [h.2.2 (by decide)]
  decide

/-! ## Claim C2 -/

/-- C2 counterexample: on the open 3×3 grid the cell `(2, 0)` receives
number 5, not the 7 the claim asserts (the single counter advances only
at anchors, and only six anchors precede the end of the grid). -/
theorem claim2_counterexample :
    finalNum mOpen3 2 0 = 5 ∧ ¬ finalNum mOpen3 2 0 = 7 := by decide

/-- C2 amended: the open 3×3 grid is numbered `1,2,3 / 4,_,_ / 5,_,_`
(one number per anchor cell, in row-major order), and its anchors are
exactly the edge cells. -/
theorem claim2_open3 :
    (List.range 3).map (fun i => (List.range 3).map (finalNum mOpen3 i)) =
      [[1, 2, 3], [4, 0, 0], [5, 0, 0]] ∧
    (List.range 3).map (fun i => (List.range 3).map
        (fun j => decide (SpecAnchor mOpen3 i j))) =
      [[true, true, true], [true, false, false], [true, false, false]] := by
  decide

/-! ## Claim C3 -/

/-- C3: the answer-clue table is built across-first then down, each
direction in ascending clue-number order (`sortKeys` is sorted and a
permutation of the direction's keys), expanding rebus symbols; the first
expanded answer already present in the table aborts the construction
with the duplicate-answer `ValueError` whose message names that answer
(`dupMsg`), and otherwise no entry is overwritten (the pairs are exactly
the across-then-down list). -/
theorem claim3_answer_clue (cdA cdD : List (Int × String))
    (adA adD : List (Int × List Char)) (rebus : List (Char × List Char))
    (hA : ∀ k ∈ sortKeys cdA, (dictLookup adA k).isSome)
    (hD : ∀ k ∈ sortKeys cdD, (dictLookup adD k).isSome) :
    List.Sorted (· ≤ ·) (sortKeys cdA) ∧
    List.Sorted (· ≤ ·) (sortKeys cdD) ∧
    List.Perm (sortKeys cdA) (cdA.map Prod.fst) ∧
    List.Perm (sortKeys cdD) (cdD.map Prod.fst) ∧
    getAnswerClueDict cdA cdD adA adD rebus =
      (match firstDupFrom []
          (SpecAcdAnswers cdA adA rebus ++ SpecAcdAnswers cdD adD rebus) with
      | some a => Except.error (dupMsg a)
      | none =>
        Except.ok (SpecAcdPairs cdA adA rebus ++ SpecAcdPairs cdD adD rebus)) :=
  ⟨List.sorted_insertionSort _ _, List.sorted_insertionSort _ _,
   List.perm_insertionSort _ _, List.perm_insertionSort _ _,
   acd_spec cdA cdD adA adD rebus hA hD⟩

theorem claim3_answer_clue_witness :
    getAnswerClueDict [(1, "clue across")] [(1, "clue down")]
        [(1, ['A'])] [(1, ['A'])] [] =
      Except.error (dupMsg ['A']) := by
  have h := claim3_answer_clue [(1, "clue across")] [(1, "clue down")]
    [(1, ['A'])] [(1, ['A'])] [] (by decide) (by decide)
  exact h.2.2.2.2.trans rfl

/-! ## Claim C10 -/

/-- C10: the construction iterates only over the clue numbers present in
the clue table: a derived entry whose number has no clue text is omitted
entirely (the table has exactly one pair per clue-table entry) and never
participates in duplicate detection, so two derived entries with equal
expanded answers — neither number having clue text — are both accepted
without error. -/
theorem claim10_unclued_skipped (cdA cdD : List (Int × String))
    (adA adD : List (Int × List Char)) (rebus : List (Char × List Char))
    (n1 n2 : Int) (a1 a2 : List Char)
    (h1 : n1 ∉ cdA.map Prod.fst) (h2 : n2 ∉ cdD.map Prod.fst)
    (g1 : dictLookup adA n1 = some a1) (g2 : dictLookup adD n2 = some a2)
    (geq : expandAnswer rebus a1 = expandAnswer rebus a2)
    (hA : ∀ k ∈ sortKeys cdA, (dictLookup adA k).isSome)
    (hD : ∀ k ∈ sortKeys cdD, (dictLookup adD k).isSome)
    (hnd : firstDupFrom []
      (SpecAcdAnswers cdA adA rebus ++ SpecAcdAnswers cdD adD rebus) = none) :
    getAnswerClueDict cdA cdD adA adD rebus =
      Except.ok (SpecAcdPairs cdA adA rebus ++ SpecAcdPairs cdD adD rebus) ∧
    (SpecAcdPairs cdA adA rebus).length = cdA.length ∧
    (SpecAcdPairs cdD adD rebus).length = cdD.length := by
  refine ⟨?_, ?_, ?_⟩
  · rw [acd_spec cdA cdD adA adD rebus hA hD, hnd]
  · unfold SpecAcdPairs
    rw [List.length_map]
    have := (List.perm_insertionSort (· ≤ ·) (cdA.map Prod.fst)).length_eq
    unfold sortKeys
    rw [this, List.length_map]
  · unfold SpecAcdPairs
    rw [List.length_map]
    have := (List.perm_insertionSort (· ≤ ·) (cdD.map Prod.fst)).length_eq
    unfold sortKeys
    rw [this, List.length_map]

/-! ## Claim C4: the hypothesized per-row mismatch cannot occur -/

/-- For every row of a (rectangular) grid, the number of across-start
numbers recorded for the row equals the number of nonempty fragments of
the row split on the block marker: the structural invariant holds
unconditionally, so the mismatch hypothesized by C4 has no instance. -/
theorem across_counts_match (m : Model) {i : Nat} (hi : i < m.R) :
    (acrossStartsRow m i).length =
      ((splitDot (rowChars m i)).filter
        (fun b => decide (0 < b.length))).length := by
  rw [acrossStartsRow_eq m hi, acrossWords_row m hi,
    List.length_map, List.length_map]

/-- The analogous always-true invariant for a column in the down
direction. -/
theorem down_counts_match (m : Model) {j : Nat} (hj : j < m.C) :
    (downStartsCol m j).length =
      ((splitDot (colChars m j)).filter
        (fun b => decide (0 < b.length))).length := by
  rw [downStartsCol_eq m hj, downWords_col m hj,
    List.length_map, List.length_map]

/-! ## Claim C5 -/

/-- C5 counterexample: on the 1×1 grid with an empty clue table the
numbering derives number 1 with answer `A` in both directions, yet the
answer-clue construction returns the empty table — the derived entry is
dropped outright, not produced with an empty clue string — and the clue
encoding emits only the two headers and the footer, no clue element. -/
theorem claim5_counterexample :
    finalNum mNoClue 0 0 = 1 ∧
    getAnswerClueDict mNoClue.cdA mNoClue.cdD [(1, ['A'])] [(1, ['A'])]
        mNoClue.rebus = Except.ok [] ∧
    encodeClues mNoClue true =
      ["\n\n<clues ordering=\"\"><title>Across</title>\n\n",
       "\n</clues>\n\n<clues ordering=\"\"><title>Down</title>\n\n",
       "\n</clues>\n\n"] :=
  ⟨by decide, rfl, by decide⟩

/-- C5 corrected: missing clue text for a derived number is indeed
non-fatal, but the number's entry is dropped rather than emitted with an
empty clue string: the construction iterates only the clue-table keys,
so a number `n` outside the across clue table is never visited, and
every pair of the across block arises from some key of the across clue
table. -/
theorem claim5_missing_clue_dropped (cdA cdD : List (Int × String))
    (adA adD : List (Int × List Char)) (rebus : List (Char × List Char))
    (n : Int) (hn : n ∉ cdA.map Prod.fst)
    (hA : ∀ k ∈ sortKeys cdA, (dictLookup adA k).isSome)
    (hD : ∀ k ∈ sortKeys cdD, (dictLookup adD k).isSome)
    (hnd : firstDupFrom []
      (SpecAcdAnswers cdA adA rebus ++ SpecAcdAnswers cdD adD rebus) = none) :
    getAnswerClueDict cdA cdD adA adD rebus =
      Except.ok (SpecAcdPairs cdA adA rebus ++ SpecAcdPairs cdD adD rebus) ∧
    n ∉ sortKeys cdA ∧
    (∀ pr ∈ SpecAcdPairs cdA adA rebus, ∃ k, k ∈ cdA.map Prod.fst ∧
      pr = (expandAnswer rebus ((dictLookup adA k).getD []),
            (dictLookup cdA k).getD "")) := by
  refine ⟨?_, ?_, ?_⟩
  · rw [acd_spec cdA cdD adA adD rebus hA hD, hnd]
  · intro hmem
    exact hn ((List.perm_insertionSort (· ≤ ·) (cdA.map Prod.fst)).mem_iff.mp hmem)
  · intro pr hpr
    obtain ⟨k, hk, hkpr⟩ := List.mem_map.mp hpr
    exact ⟨k, (List.perm_insertionSort (· ≤ ·) (cdA.map Prod.fst)).mem_iff.mp hk,
      hkpr.symm⟩

theorem claim5_missing_clue_dropped_witness :
    getAnswerClueDict [(1, "solo")] [] [(1, ['C']), (2, ['D'])] [] [] =
      Except.ok [(['C'], "solo")] ∧
    (2 : Int) ∉ sortKeys [(1, "solo")] := by
  have h := claim5_missing_clue_dropped [(1, "solo")] []
    [(1, ['C']), (2, ['D'])] [] [] 2 (by decide) (by decide) (by decide)
    (by decide)
  exact ⟨h.1.trans rfl, h.2.1⟩

theorem claim10_unclued_skipped_witness :
    getAnswerClueDict [(1, "c1")] [] [(1, ['A']), (2, ['B'])] [(3, ['B'])] [] =
      Except.ok [(['A'], "c1")] := by
  have h := claim10_unclued_skipped [(1, "c1")] [] [(1, ['A']), (2, ['B'])]
    [(3, ['B'])] [] 2 3 ['B'] ['B'] (by decide) (by decide) (by decide)
    (by decide) (by decide) (by decide) (by decide) (by decide)
  exact h.1.trans rfl

/-! ## Claim C6 -/

/-- The cell element as the claim describes it: a block exactly when the
numbering value is `-1`; otherwise the solution is the rebus expansion
when the grid character is a rebus symbol (else the character itself),
the number attribute is present exactly when the numbering value is
positive, and the circle flag is present exactly when the row-major
linear index lies in the circle set — the last two composed as
independent optional segments. -/
def SpecCellString (m : Model) (pretty : Bool) (i j : Nat) : String :=
  let lb := lbOf pretty
  if finalNum m i j = -1 then
    "<cell x=\"" ++ toString (j + 1) ++ "\" y=\"" ++ toString (i + 1) ++
      "\" type=\"block\" />" ++ lb
  else
    "<cell x=\"" ++ toString (j + 1) ++ "\" y=\"" ++ toString (i + 1) ++
      "\" solution=\"" ++
      (if m.g i j ∈ m.rebus.map Prod.fst then
        String.mk ((dictLookup m.rebus (m.g i j)).getD [])
      else String.mk [m.g i j]) ++ "\"" ++
      (if 0 < finalNum m i j then
        " number=\"" ++ toString (finalNum m i j) ++ "\"" else "") ++
      (if ((j : Int) + (m.C : Int) * (i : Int)) ∈ m.circles then
        " background-shape=\"circle\"" else "") ++
      " />" ++ lb

/-- The source's nested conditionals emit exactly the independent
composition of optional attributes the claim describes. -/
theorem cellString_eq_spec (m : Model) (pretty : Bool) {i j : Nat}
    (hiR : i < m.R) (hj : j < m.C) :
    cellString m pretty i j = SpecCellString m pretty i j := by
  unfold cellString SpecCellString
  rcases finalNum_cases m hiR hj with hk | hk | hk
  · rw [if_pos hk, if_pos hk]
  · rw [if_neg (by omega : ¬ finalNum m i j = -1),
      if_neg (by omega : ¬ finalNum m i j = -1), if_pos hk,
      if_neg (by omega : ¬ 0 < finalNum m i j)]
    by_cases hc : ((j : Int) + (m.C : Int) * (i : Int)) ∈ m.circles
    · rw [if_pos hc, if_pos hc]
      by_cases hr : m.g i j ∈ m.rebus.map Prod.fst
      · rw [if_pos hr]
        refine String.ext ?_
        simp only [String.data_append, List.append_assoc]
        rfl
      · rw [if_neg hr]
        refine String.ext ?_
        simp only [String.data_append, List.append_assoc]
        rfl
    · rw [if_neg hc, if_neg hc]
      by_cases hr : m.g i j ∈ m.rebus.map Prod.fst
      · rw [if_pos hr]
        refine String.ext ?_
        simp only [String.data_append, List.append_assoc]
        rfl
      · rw [if_neg hr]
        refine String.ext ?_
        simp only [String.data_append, List.append_assoc]
        rfl
  · rw [if_neg (by omega : ¬ finalNum m i j = -1),
      if_neg (by omega : ¬ finalNum m i j = -1),
      if_neg (by omega : ¬ finalNum m i j = 0), if_pos hk]
    by_cases hc : ((j : Int) + (m.C : Int) * (i : Int)) ∈ m.circles
    · rw [if_pos hc, if_pos hc]
      by_cases hr : m.g i j ∈ m.rebus.map Prod.fst
      · rw [if_pos hr]
        refine String.ext ?_
        simp only [String.data_append, List.append_assoc]
        rfl
      · rw [if_neg hr]
        refine String.ext ?_
        simp only [String.data_append, List.append_assoc]
        rfl
    · rw [if_neg hc, if_neg hc]
      by_cases hr : m.g i j ∈ m.rebus.map Prod.fst
      · rw [if_pos hr]
        refine String.ext ?_
        simp only [String.data_append, List.append_assoc]
        rfl
      · rw [if_neg hr]
        refine String.ext ?_
        simp only [String.data_append, List.append_assoc]
        rfl

/-- A flatMap over `range` with constant-length pieces has the product
length. -/
theorem flatMap_constlen_length {α : Type _} (g : Nat → List α) (C : Nat)
    (h : ∀ a, (g a).length = C) (R : Nat) :
    ((List.range R).flatMap g).length = R * C := by
  induction R with
  | zero => simp
  | succ n ih =>
    rw [List.range_succ, List.flatMap_append, List.length_append, ih]
    simp [h, Nat.succ_mul]

/-- Row-major indexing into a flatMap over `range` with constant-length
pieces. -/
theorem flatMap_rowmajor_get? {α : Type _} (g : Nat → List α) (C : Nat)
    (h : ∀ a, (g a).length = C) {R i j : Nat} (hi : i < R) (hj : j < C) :
    ((List.range R).flatMap g).get? (i * C + j) = (g i).get? j := by
  induction R with
  | zero => omega
  | succ n ih =>
    rw [List.range_succ, List.flatMap_append, List.flatMap_cons,
      List.flatMap_nil, List.append_nil]
    rcases Nat.lt_or_ge i n with hlt | hge
    · rw [List.get?_append]
      · exact ih hlt
      · rw [flatMap_constlen_length g C h]
        calc i * C + j < i * C + C := by omega
        _ = (i + 1) * C := by ring
        _ ≤ n * C := Nat.mul_le_mul_right C hlt
    · have hieq : i = n := by omega
      subst hieq
      rw [List.get?_append_right]
      · rw [flatMap_constlen_length g C h]
        congr 1
        omega
      · rw [flatMap_constlen_length g C h]
        omega

/-- C6: the encoded grid block holds, at the position following the
header that row-major cell `(i, j)` occupies, exactly the cell element
of the claim: a block if and only if the numbering value is `-1`,
otherwise the solution character is the rebus expansion of the grid
character when that character is a rebus symbol and the character
itself otherwise, with a number attribute if and only if the numbering
value is positive and the circle flag if and only if the linear index
`j + C·i` is in the circle set, the two attributes independent. -/
theorem claim6_cell (m : Model) (pretty : Bool) (i j : Nat)
    (hiR : i < m.R) (hj : j < m.C) :
    (encodeGrid m pretty).get? (1 + (i * m.C + j)) =
      some (SpecCellString m pretty i j) := by
  have hbound : i * m.C + j < m.R * m.C := by
    calc i * m.C + j < i * m.C + m.C := by omega
    _ = (i + 1) * m.C := by ring
    _ ≤ m.R * m.C := Nat.mul_le_mul_right m.C hiR
  simp only [encodeGrid]
  rw [Nat.add_comm 1 (i * m.C + j), List.cons_append, List.nil_append]
  rw [List.get?_append]
  · rw [List.get?_cons_succ]
    rw [flatMap_rowmajor_get?
      (fun a => (List.range m.C).map (fun b => cellString m pretty a b))
      m.C (fun a => by rw [List.length_map, List.length_range]) hiR hj]
    rw [List.get?_map, List.get?_range hj]
    rw [Option.map_some']
    exact congrArg some (cellString_eq_spec m pretty hiR hj)
  · rw [List.length_cons, flatMap_constlen_length _ m.C
      (fun a => by rw [List.length_map, List.length_range])]
    omega

theorem claim6_cell_witness :
    (encodeGrid mRebus true).get? 2 =
      some "<cell x=\"2\" y=\"1\" solution=\"X\" number=\"2\" background-shape=\"circle\" />\n" := by
  have h := claim6_cell mRebus true 0 1 (by decide) (by decide)
  exact h.trans (by decide)

/-! ## Claim C7 -/

theorem init_le_foldl_max (l : List Int) (init : Int) :
    init ≤ l.foldl max init := by
  induction l generalizing init with
  | nil => exact le_refl _
  | cons b bs ih =>
    rw [List.foldl_cons]
    exact le_trans (le_max_left init b) (ih (max init b))

theorem le_foldl_max (l : List Int) (init x : Int) (hx : x ∈ l) :
    x ≤ l.foldl max init := by
  induction l generalizing init with
  | nil => cases hx
  | cons b bs ih =>
    rw [List.foldl_cons]
    rcases List.mem_cons.mp hx with rfl | hx2
    · exact le_trans (le_max_right init x) (init_le_foldl_max bs (max init x))
    · exact ih (max init b) hx2

/-- Every member of the sorted across-start list is the numbering value
of some across-start cell. -/
theorem mem_catAcrossStarts_elim {m : Model} {a : Int}
    (h : a ∈ catAcrossStarts m) :
    ∃ i p, i < m.R ∧ SpecAcrossStart m i p ∧ a = finalNum m i p := by
  have h2 : a ∈ (acrossStarts m).flatten :=
    (List.perm_insertionSort (· ≤ ·) ((acrossStarts m).flatten)).mem_iff.mp h
  obtain ⟨l, hl, hal⟩ := List.mem_flatten.mp h2
  obtain ⟨i, hi, rfl⟩ := List.mem_map.mp hl
  have hiR : i < m.R := List.mem_range.mp hi
  rw [acrossStartsRow_eq m hiR] at hal
  obtain ⟨p, hp, rfl⟩ := List.mem_map.mp hal
  exact ⟨i, p, hiR, mem_SpecAcrossHeads hp, rfl⟩

/-- Every member of the sorted down-start list is the numbering value of
some down-start cell. -/
theorem mem_catDownStarts_elim {m : Model} {a : Int}
    (h : a ∈ catDownStarts m) :
    ∃ p j, j < m.C ∧ SpecDownStart m p j ∧ a = finalNum m p j := by
  have h2 : a ∈ (downStarts m).flatten :=
    (List.perm_insertionSort (· ≤ ·) ((downStarts m).flatten)).mem_iff.mp h
  obtain ⟨l, hl, hal⟩ := List.mem_flatten.mp h2
  obtain ⟨j, hj, rfl⟩ := List.mem_map.mp hl
  have hjC : j < m.C := List.mem_range.mp hj
  rw [downStartsCol_eq m hjC] at hal
  obtain ⟨p, hp, rfl⟩ := List.mem_map.mp hal
  exact ⟨p, j, hjC, mem_SpecDownHeads hp, rfl⟩

theorem finalNum_le_maxNumbering (m : Model) {i p : Nat}
    (hi : i < m.R) (hp : p < m.C) :
    finalNum m i p ≤ maxNumbering m := by
  refine le_foldl_max _ _ _ ?_
  exact List.mem_flatMap.mpr ⟨i, List.mem_range.mpr hi,
    List.mem_map.mpr ⟨p, List.mem_range.mpr hp, rfl⟩⟩

theorem mem_intRange1To {a n : Int} (h1 : 1 ≤ a) (h2 : a ≤ n) :
    a ∈ intRange1To n := by
  have hmem : (a - 1).toNat ∈ List.range n.toNat :=
    List.mem_range.mpr (by omega)
  have h3 : (((a - 1).toNat : Int) + 1) ∈
      (List.range n.toNat).map (fun (k : Nat) => (k : Int) + 1) :=
    List.mem_map_of_mem (fun (k : Nat) => (k : Int) + 1) hmem
  have heq : (((a - 1).toNat : Int) + 1) = a := by omega
  rw [heq] at h3
  exact h3

/-- An across start number lies in the iterated range `1 ..
maxNumbering`. -/
theorem catAcrossStarts_mem_range {m : Model} {a : Int}
    (h : a ∈ catAcrossStarts m) : a ∈ intRange1To (maxNumbering m) := by
  obtain ⟨i, p, hi, hs, rfl⟩ := mem_catAcrossStarts_elim h
  have hpC : p < m.C := hs.2.1
  have hpos : 0 < finalNum m i p :=
    (finalNum_pos_iff m hi hpC).mpr (Or.inl hs)
  exact mem_intRange1To (by omega) (finalNum_le_maxNumbering m hi hpC)

/-- A down start number lies in the iterated range `1 ..
maxNumbering`. -/
theorem catDownStarts_mem_range {m : Model} {a : Int}
    (h : a ∈ catDownStarts m) : a ∈ intRange1To (maxNumbering m) := by
  obtain ⟨p, j, hj, hs, rfl⟩ := mem_catDownStarts_elim h
  have hpR : p < m.R := hs.1
  have hpos : 0 < finalNum m p j :=
    (finalNum_pos_iff m hpR hj).mpr (Or.inr hs)
  exact mem_intRange1To (by omega) (finalNum_le_maxNumbering m hpR hj)

/-- The across half of a location step only appends, and appends the
across word-open element when the number is an across start. -/
theorem locWordAcross_shape (m : Model) (adA : List (Int × List Char))
    (pretty : Bool) (acc : List String) (a : Int) (r : List String)
    (h : locWordAcross m adA pretty acc a = some r) :
    ∃ t, r = acc ++ t ∧
      (a ∈ catAcrossStarts m →
        ("<word id=\"" ++ toString a ++ "0000\">" ++ lbOf pretty) ∈ t) := by
  unfold locWordAcross at h
  by_cases hA : a ∈ catAcrossStarts m
  · rw [if_pos hA, Option.bind_eq_some] at h
    obtain ⟨ans, hans, h⟩ := h
    rw [Option.map_eq_some'] at h
    obtain ⟨cells, hcells, h⟩ := h
    refine ⟨["<word id=\"" ++ toString a ++ "0000\">" ++ lbOf pretty] ++
        cells ++ ["</word>" ++ lbOf pretty], ?_, fun _ => by simp⟩
    rw [← h]
    simp [List.append_assoc]
  · rw [if_neg hA] at h
    exact ⟨[], by rw [← Option.some.inj h, List.append_nil],
      fun hmem => absurd hmem hA⟩

/-- The down half of a location step only appends, and appends the down
word-open element when the number is a down start. -/
theorem locWordDown_shape (m : Model) (adD : List (Int × List Char))
    (pretty : Bool) (acc : List String) (a : Int) (r : List String)
    (h : locWordDown m adD pretty acc a = some r) :
    ∃ t, r = acc ++ t ∧
      (a ∈ catDownStarts m →
        ("<word id=\"" ++ toString a ++ "0001\">" ++ lbOf pretty) ∈ t) := by
  unfold locWordDown at h
  by_cases hD : a ∈ catDownStarts m
  · rw [if_pos hD, Option.bind_eq_some] at h
    obtain ⟨ans, hans, h⟩ := h
    rw [Option.map_eq_some'] at h
    obtain ⟨cells, hcells, h⟩ := h
    refine ⟨["<word id=\"" ++ toString a ++ "0001\">" ++ lbOf pretty] ++
        cells ++ ["</word>" ++ lbOf pretty], ?_, fun _ => by simp⟩
    rw [← h]
    simp [List.append_assoc]
  · rw [if_neg hD] at h
    exact ⟨[], by rw [← Option.some.inj h, List.append_nil],
      fun hmem => absurd hmem hD⟩

/-- One location step only appends, and when the iterated number is an
across (down) start the appended part holds the across (down) word-open
element whose identifier is the number followed by `0000` (`0001`). -/
theorem locStep_shape (m : Model) (adA adD : List (Int × List Char))
    (pretty : Bool) (acc : List String) (a : Int) (r : List String)
    (h : locStep m adA adD pretty acc a = some r) :
    ∃ t, r = acc ++ t ∧
      (a ∈ catAcrossStarts m →
        ("<word id=\"" ++ toString a ++ "0000\">" ++ lbOf pretty) ∈ t) ∧
      (a ∈ catDownStarts m →
        ("<word id=\"" ++ toString a ++ "0001\">" ++ lbOf pretty) ∈ t) := by
  unfold locStep at h
  rw [Option.bind_eq_some] at h
  obtain ⟨acc1, h1, h2⟩ := h
  obtain ⟨t1, rfl, hm1⟩ := locWordAcross_shape m adA pretty acc a acc1 h1
  obtain ⟨t2, rfl, hm2⟩ := locWordDown_shape m adD pretty (acc ++ t1) a _ h2
  refine ⟨t1 ++ t2, List.append_assoc _ _ _, ?_, ?_⟩
  · intro hmem
    exact List.mem_append_left t2 (hm1 hmem)
  · intro hmem
    exact List.mem_append_right t1 (hm2 hmem)

/-- Membership in a `flatMap` from a member of one piece. -/
theorem mem_flatMap_of_mem {α β : Type _} {l : List α} {a : α}
    (f : α → List β) (h : a ∈ l) {x : β} (hx : x ∈ f a) :
    x ∈ l.flatMap f :=
  List.mem_flatMap.mpr ⟨a, h, hx⟩

/-- Destructure a successful monadic `Option` bind. -/
theorem option_bind_eq_some {α β : Type _} {x : Option α}
    {f : α → Option β} {b : β} (h : x >>= f = some b) :
    ∃ a, x = some a ∧ f a = some b := by
  have h2 : x.bind f = some b := h
  rw [Option.bind_eq_some] at h2
  exact h2

/-- An option-valued fold whose step only appends only appends. -/
theorem foldlM_append_mono {α β : Type _}
    (step : List β → α → Option (List β))
    (hsh : ∀ acc a r, step acc a = some r → ∃ t, r = acc ++ t) :
    ∀ (l : List α) (acc L : List β), l.foldlM step acc = some L →
      ∃ t, L = acc ++ t := by
  intro l
  induction l with
  | nil =>
    intro acc L h
    rw [List.foldlM_nil] at h
    exact ⟨[], by rw [← Option.some.inj h, List.append_nil]⟩
  | cons b bs ih =>
    intro acc L h
    rw [List.foldlM_cons] at h
    obtain ⟨r, hr, h2⟩ := option_bind_eq_some h
    obtain ⟨t1, rfl⟩ := hsh acc b r hr
    obtain ⟨t2, rfl⟩ := ih (acc ++ t1) L h2
    exact ⟨t1 ++ t2, List.append_assoc _ _ _⟩

/-- Membership in the result of an append-only option fold, from the
step that introduces the element. -/
theorem foldlM_mem_of_step {α β : Type _}
    (step : List β → α → Option (List β))
    (hsh : ∀ acc a r, step acc a = some r → ∃ t, r = acc ++ t)
    (a0 : α) (x : β)
    (hx : ∀ acc r, step acc a0 = some r → x ∈ r) :
    ∀ (l : List α) (acc L : List β), a0 ∈ l →
      l.foldlM step acc = some L → x ∈ L := by
  intro l
  induction l with
  | nil =>
    intro acc L hmem _
    exact absurd hmem (List.not_mem_nil a0)
  | cons b bs ih =>
    intro acc L hmem hfold
    rw [List.foldlM_cons] at hfold
    obtain ⟨r, hr, h2⟩ := option_bind_eq_some hfold
    rcases List.mem_cons.mp hmem with rfl | hmem2
    · obtain ⟨t, rfl⟩ := foldlM_append_mono step hsh bs r L h2
      exact List.mem_append_left t (hx acc r hr)
    · exact ih r L hmem2 h2

/-- C7: whenever the word-location block is produced, each across start
number `N` contributes a word element with identifier `N0000` and each
down start number one with identifier `N0001`; and each across
(respectively down) clue-table entry for `N` yields a clue element
referencing the same `N0000` (respectively `N0001`), so the two blocks
reference matching identifiers regardless of which directions `N`
anchors. -/
theorem claim7_identifiers (m : Model) (adA adD : List (Int × List Char))
    (pretty : Bool) (L : List String) (n : Int) (c : String)
    (hL : encodeLocations m adA adD pretty = some L) :
    (n ∈ catAcrossStarts m →
      ("<word id=\"" ++ toString n ++ "0000\">" ++ lbOf pretty) ∈ L) ∧
    (n ∈ catDownStarts m →
      ("<word id=\"" ++ toString n ++ "0001\">" ++ lbOf pretty) ∈ L) ∧
    ((n, c) ∈ m.cdA →
      ("<clue number=\"" ++ toString n ++ "\" word=\"" ++ toString n ++
        "0000\">" ++ lbOf pretty) ∈ encodeClues m pretty) ∧
    ((n, c) ∈ m.cdD →
      ("<clue number=\"" ++ toString n ++ "\" word=\"" ++ toString n ++
        "0001\">" ++ lbOf pretty) ∈ encodeClues m pretty) := by
  unfold encodeLocations at hL
  have hsh : ∀ acc a r, locStep m adA adD pretty acc a = some r →
      ∃ t, r = acc ++ t := by
    intro acc a r h
    obtain ⟨t, ht, _, _⟩ := locStep_shape m adA adD pretty acc a r h
    exact ⟨t, ht⟩
  refine ⟨?_, ?_, ?_, ?_⟩
  · intro hmem
    refine foldlM_mem_of_step (locStep m adA adD pretty) hsh n _ ?_ _ [] L
      (catAcrossStarts_mem_range hmem) hL
    intro acc r h
    obtain ⟨t, rfl, hac, _⟩ := locStep_shape m adA adD pretty acc n r h
    exact List.mem_append_right acc (hac hmem)
  · intro hmem
    refine foldlM_mem_of_step (locStep m adA adD pretty) hsh n _ ?_ _ [] L
      (catDownStarts_mem_range hmem) hL
    intro acc r h
    obtain ⟨t, rfl, _, hdn⟩ := locStep_shape m adA adD pretty acc n r h
    exact List.mem_append_right acc (hdn hmem)
  · intro hmem
    simp only [encodeClues]
    refine List.mem_append_left _ (List.mem_append_left _
      (List.mem_append_left _ (List.mem_append_right _ ?_)))
    refine mem_flatMap_of_mem _ hmem ?_
    exact List.mem_cons_self _ _
  · intro hmem
    simp only [encodeClues]
    refine List.mem_append_left _ (List.mem_append_right _ ?_)
    refine mem_flatMap_of_mem _ hmem ?_
    exact List.mem_cons_self _ _

theorem claim7_identifiers_witness :
    ("<word id=\"" ++ toString (1 : Int) ++ "0000\">" ++ lbOf true) ∈
      ((encodeLocations mTwo [(1, ['A','B'])] [(1, ['A']), (2, ['B'])]
        true).getD []) ∧
    ("<word id=\"" ++ toString (1 : Int) ++ "0001\">" ++ lbOf true) ∈
      ((encodeLocations mTwo [(1, ['A','B'])] [(1, ['A']), (2, ['B'])]
        true).getD []) ∧
    ("<clue number=\"" ++ toString (1 : Int) ++ "\" word=\"" ++
      toString (1 : Int) ++ "0000\">" ++ lbOf true) ∈
      encodeClues mTwo true := by
  have h := claim7_identifiers mTwo [(1, ['A','B'])] [(1, ['A']), (2, ['B'])]
    true ((encodeLocations mTwo [(1, ['A','B'])] [(1, ['A']), (2, ['B'])]
      true).getD []) 1 "hello" rfl
  exact ⟨h.1 (by decide), h.2.1 (by decide), h.2.2.1 (by decide)⟩

/-! ## Claim C8 -/

theorem length_flatMap_two {α β : Type _} (f g : α → β) (l : List α) :
    (l.flatMap (fun p => [f p, g p])).length = 2 * l.length := by
  induction l with
  | nil => rfl
  | cons b bs ih =>
    rw [List.flatMap_cons, List.length_append, ih]
    simp only [List.length_cons, List.length_nil]
    omega

theorem get?_flatMap_two {α β : Type _} (f g : α → β) (l : List α) :
    ∀ k, k < l.length →
      (l.flatMap (fun p => [f p, g p])).get? (2 * k) = (l.get? k).map f ∧
      (l.flatMap (fun p => [f p, g p])).get? (2 * k + 1) = (l.get? k).map g := by
  induction l with
  | nil =>
    intro k hk
    rw [List.length_nil] at hk
    omega
  | cons b bs ih =>
    intro k hk
    rw [List.flatMap_cons]
    cases k with
    | zero => exact ⟨rfl, rfl⟩
    | succ k2 =>
      have h2 : 2 * (k2 + 1) = (2 * k2 + 1) + 1 := by ring
      rw [h2]
      have hk2 : k2 < bs.length := by
        rw [List.length_cons] at hk
        omega
      exact ih k2 hk2

/-- C8 counterexample: with the across clue table stored as clue 2
before clue 1 (and no down clues) the encoder emits clue 2's element
before clue 1's — dictionary insertion order, not ascending numeric
order. -/
theorem claim8_counterexample :
    (encodeClues mUnsorted true).get? 1 =
      some "<clue number=\"2\" word=\"20000\">\n" ∧
    (encodeClues mUnsorted true).get? 3 =
      some "<clue number=\"1\" word=\"10000\">\n" := by decide

/-- C8 corrected: the output is a fixed function of the model and the
whitespace mode, with the entire across block before the entire down
block; but within each direction the clue elements appear in the clue
dictionary's stored (insertion) order — entry `k` of the across table
at position `1 + 2k` and entry `k` of the down table at position
`2 + 2·|across| + 2k` — not in ascending clue-number order. -/
theorem claim8_stored_order (m : Model) (pretty : Bool) (k : Nat) :
    (encodeClues m pretty).length =
      3 + 2 * m.cdA.length + 2 * m.cdD.length ∧
    (k < m.cdA.length →
      (encodeClues m pretty).get? (1 + 2 * k) =
        (m.cdA.get? k).map (fun p =>
          "<clue number=\"" ++ toString p.1 ++ "\" word=\"" ++
            toString p.1 ++ "0000\">" ++ lbOf pretty)) ∧
    (k < m.cdD.length →
      (encodeClues m pretty).get? (2 + 2 * m.cdA.length + 2 * k) =
        (m.cdD.get? k).map (fun p =>
          "<clue number=\"" ++ toString p.1 ++ "\" word=\"" ++
            toString p.1 ++ "0001\">" ++ lbOf pretty)) := by
  refine ⟨?_, ?_, ?_⟩
  · simp only [encodeClues]
    rw [List.length_append, List.length_append, List.length_append,
      List.length_append, length_flatMap_two, length_flatMap_two,
      List.length_singleton, List.length_singleton, List.length_singleton]
    omega
  · intro hk
    simp only [encodeClues]
    rw [List.append_assoc, List.append_assoc, List.append_assoc,
      List.singleton_append, Nat.add_comm 1 (2 * k), List.get?_cons_succ]
    rw [List.get?_append]
    · exact (get?_flatMap_two _ _ m.cdA k hk).1
    · rw [length_flatMap_two]
      omega
  · intro hk
    simp only [encodeClues]
    rw [List.append_assoc, List.append_assoc, List.append_assoc,
      List.singleton_append]
    have h1 : 2 + 2 * m.cdA.length + 2 * k =
        (1 + 2 * m.cdA.length + 2 * k) + 1 := by omega
    rw [h1, List.get?_cons_succ]
    rw [List.get?_append_right]
    · rw [length_flatMap_two]
      have h2 : 1 + 2 * m.cdA.length + 2 * k - 2 * m.cdA.length =
          2 * k + 1 := by omega
      rw [h2, List.singleton_append, List.get?_cons_succ]
      rw [List.get?_append]
      · exact (get?_flatMap_two _ _ m.cdD k hk).1
      · rw [length_flatMap_two]
        omega
    · rw [length_flatMap_two]
      omega

theorem claim8_stored_order_witness :
    (encodeClues mUnsorted true).get? 1 =
      some "<clue number=\"2\" word=\"20000\">\n" ∧
    (encodeClues mUnsorted true).get? 6 =
      some "<clue number=\"1\" word=\"10001\">\n" := by
  have h := claim8_stored_order mUnsorted true 0
  exact ⟨(h.2.1 (by decide)).trans (by decide),
    (h.2.2 (by decide)).trans (by decide)⟩

/-! ## Claim C9 -/

/-- C9 counterexample: on the rebus grid the across answer for number 1
is the two-cell word `@X`; its rebus expansion `ROSEX` has length 5
while the entry spans 2 grid cells, so expanded length does not equal
the cell count. -/
theorem claim9_counterexample :
    getAnswerDict mRebus = some ([(1, ['@','X'])], [(1, ['@']), (2, ['X'])]) ∧
    (expandAnswer mRebus.rebus ['@','X']).length = 5 ∧
    (runFrom (rowChars mRebus 0) 0).length = 2 ∧
    (5 : Nat) ≠ 2 :=
  ⟨rfl, by decide, by decide, by decide⟩

/-- C9 corrected: an answer-table entry's non-expanded form is exactly
the maximal run at its start cell, so the cells spanned equal the
un-expanded answer length; the rebus-expanded length instead equals the
sum over the answer's cells of each cell's contribution (the expansion
length for a rebus symbol, 1 otherwise), which exceeds the cell count
whenever a rebus expansion is longer than one character. -/
theorem claim9_expansion (m : Model) {dA dD : List (Int × List Char)}
    (hAD : getAnswerDict m = some (dA, dD)) (n : Int) :
    (∀ w, dictLookup dA n = some w →
      ∃ i p, i < m.R ∧ SpecAcrossStart m i p ∧
        dictLookup (getLocationDict m) n = some (i, p) ∧
        w = runFrom (rowChars m i) p ∧
        (expandAnswer m.rebus w).length =
          (w.map (SpecCellContribution m.rebus)).sum) ∧
    (∀ w, dictLookup dD n = some w →
      ∃ p j, j < m.C ∧ SpecDownStart m p j ∧
        dictLookup (getLocationDict m) n = some (p, j) ∧
        w = runFrom (colChars m j) p ∧
        (expandAnswer m.rebus w).length =
          (w.map (SpecCellContribution m.rebus)).sum) := by
  constructor
  · intro w hl
    obtain ⟨i, p, hiR, hs, hn, hw⟩ := answerDict_across_entry m hAD hl
    have hpC : p < m.C := hs.2.1
    have hpos : 0 < finalNum m i p :=
      (finalNum_pos_iff m hiR hpC).mpr (Or.inl hs)
    refine ⟨i, p, hiR, hs, ?_, hw, expandAnswer_length m.rebus w⟩
    rw [hn]
    exact getLocationDict_anchor m hiR hpC hpos
  · intro w hl
    obtain ⟨p, j, hjC, hs, hn, hw⟩ := answerDict_down_entry m hAD hl
    have hpR : p < m.R := hs.1
    have hpos : 0 < finalNum m p j :=
      (finalNum_pos_iff m hpR hjC).mpr (Or.inr hs)
    refine ⟨p, j, hjC, hs, ?_, hw, expandAnswer_length m.rebus w⟩
    rw [hn]
    exact getLocationDict_anchor m hpR hjC hpos

theorem claim9_expansion_witness :
    ∃ i p, i < mRebus.R ∧ SpecAcrossStart mRebus i p ∧
      dictLookup (getLocationDict mRebus) 1 = some (i, p) ∧
      ['@','X'] = runFrom (rowChars mRebus i) p ∧
      (expandAnswer mRebus.rebus ['@','X']).length =
        ((['@','X']).map (SpecCellContribution mRebus.rebus)).sum := by
  have h := claim9_expansion mRebus (show getAnswerDict mRebus =
    some ([(1, ['@','X'])], [(1, ['@']), (2, ['X'])]) from rfl) 1
  exact h.1 ['@','X'] rfl

end CfpJpz
